import Mathlib

/-!
Verification of the Intelligent-Traffic-Routing backend (`backend/main.py`).

The core of the program is embedded shallowly below:
* `Graph.get_weight`, `Graph.adj` embed `Graph._get_weight` and
  `Graph._build_adjacency_list` (Python builds a dict of per-node lists by
  appending both directions of each edge; `Graph.adj n` produces exactly the
  list stored under key `n`, assuming well-formed input where every edge
  endpoint is a declared node — the Python code raises `KeyError` otherwise,
  which no claim exercises).
* `searchLoop` embeds the shared body of `Graph.dijkstra` and `Graph.astar`.
  Python floats are modelled as rationals; the float value `inf` used to
  initialise `distances` is modelled as `Option.none` (it arises only there,
  and `optLt` mirrors IEEE comparisons against it).  The Python heap of
  tuples is modelled as a list with `popMin`, which removes a minimal element
  under the lexicographic tuple order — observably identical to `heapq`,
  whose pop always returns a minimal tuple.  Dijkstra pushes pairs
  `(d, node)` while A* pushes `(f, g, node)`; both are modelled as the
  triple `Entry`, with dijkstra taking `p1 = p2 = d`, which has the same
  lexicographic comparison behaviour as the pair.
  `math.sqrt` (A* heuristic) is an arbitrary parameter `sq : ℚ → ℚ`; all
  theorems about A* hold for every `sq`.  Python's `list(visited)` iterates
  a `set`, whose order CPython does not guarantee (string hashing is
  randomised per process); the model uses settlement order, the order the
  specification mandates.
* The loops are given explicit fuel; `searchLoop_completes` below proves the
  chosen fuel always suffices on well-formed input, so the fuelled model
  coincides with the Python `while` loops.
* `calculate_route` embeds the `/calculate-route` handler, including the
  `except Exception` boundary: any exception (a `KeyError` from a missing
  node position, or the `HTTPException(400)` raised for an unknown
  algorithm, which the blanket handler re-raises) becomes an HTTP 500 whose
  detail is the stringified exception.
-/

set_option maxRecDepth 2000

namespace ITR

/-- Edge record of the request body (`class Edge`): endpoints plus the two raw
attributes.  `from` is a Python keyword-aliased field, called `from_` in the
source as well. -/
structure Edge where
  from_ : String
  «to» : String
  distance : ℚ
  traffic : ℚ
deriving DecidableEq

/-- 2-D node position (`class NodePosition`). -/
structure NodePosition where
  x : ℚ
  y : ℚ
deriving DecidableEq

/-- The graph as built per request (`class Graph.__init__`). -/
structure Graph where
  nodes : List String
  edges : List Edge
  weight_type : String
deriving DecidableEq

/-- `Graph._get_weight`: `distance` and `traffic` return the respective raw
attribute; every other value of `weight_type` falls into the `else` branch
`edge.distance + (edge.traffic * 2)`. -/
def Graph.get_weight (g : Graph) (e : Edge) : ℚ :=
  if g.weight_type = "distance" then e.distance
  else if g.weight_type = "traffic" then e.traffic
  else e.distance + e.traffic * 2

/-- `Graph._build_adjacency_list`, read off per node: for each edge in request
order, the Python code appends `(edge.«to», w, edge)` to `adj[edge.from_]` and
`(edge.from_, w, edge)` to `adj[edge.«to»]`.  The third tuple component (the
edge object) is never used by the searches and is dropped here. -/
def Graph.adj (g : Graph) (n : String) : List (String × ℚ) :=
  g.edges.foldl (fun acc e =>
    acc ++ (if e.from_ = n then [(e.«to», g.get_weight e)] else [])
        ++ (if e.«to» = n then [(e.from_, g.get_weight e)] else [])) []

/-- A frontier entry: the Python heap tuples, normalised to three components
`(p1, p2, node)`.  A* pushes `(f_score, new_dist, neighbor)`, so `p1` is the
f-score and `p2` the cumulative cost; dijkstra pushes `(new_dist, neighbor)`,
modelled as `p1 = p2 = new_dist`, which compares exactly like the pair. -/
structure Entry where
  p1 : ℚ
  p2 : ℚ
  node : String
deriving DecidableEq

/-- Lexicographic tuple comparison used by Python's `heapq` on the pushed
tuples: first component, then second, then the node string. -/
def entryLe (a b : Entry) : Bool :=
  if a.p1 < b.p1 then true
  else if b.p1 < a.p1 then false
  else if a.p2 < b.p2 then true
  else if b.p2 < a.p2 then false
  else decide (¬ b.node < a.node)

/-- Keep the smaller of two entries (ties keep the first argument). -/
def selMin (a b : Entry) : Entry := if entryLe a b then a else b

/-- A minimal element of the frontier, or `none` when it is empty. -/
def pqMin : List Entry → Option Entry
  | [] => none
  | x :: xs => some (xs.foldl selMin x)

/-- `heapq.heappop`: return a minimal entry and the remaining multiset. -/
def popMin (l : List Entry) : Option (Entry × List Entry) :=
  match pqMin l with
  | none => none
  | some m => some (m, l.erase m)

/-- Comparison `new_dist < distances[neighbor]` where the right value may be
the `inf` placeholder (`none`): every rational is below `inf`, and `inf`
itself is not. -/
def optLt : Option ℚ → Option ℚ → Bool
  | some a, some b => decide (a < b)
  | some _, none => true
  | none, _ => false

/-- First-match association-list lookup: Python `dict` access / `.get`. -/
def lookupKV {α : Type} : List (String × α) → String → Option α
  | [], _ => none
  | (k, v) :: t, x => if x = k then some v else lookupKV t x

/-- Python `dict` assignment `previous[neighbor] = current`: overwriting keeps
the key at its original position, a fresh key is appended. -/
def updPrev (l : List (String × String)) (k v : String) : List (String × String) :=
  if (lookupKV l k).isSome then l.map (fun p => if p.1 = k then (k, v) else p)
  else l ++ [(k, v)]

/-- One trace snapshot (`class PathStep` / the dict appended to `steps`):
the settled node, the settled set (in settlement order, see the module
comment), the rendered distance map (`inf` rendered as `999999`), and a copy
of the predecessor map. -/
structure PathStep where
  current : String
  visited : List String
  distances : List (String × ℚ)
  previous : List (String × String)
deriving DecidableEq

/-- Sentinel rendering of one internal distance value:
`v if v != float('inf') else 999999`. -/
def renderVal : Option ℚ → ℚ
  | none => 999999
  | some v => v

/-- The rendered snapshot distances: iterate the `distances` dict (whose keys
are the declared nodes, in order) replacing `inf` by the sentinel `999999`. -/
def renderDistances (nodes : List String) (dist : String → Option ℚ) : List (String × ℚ) :=
  nodes.map (fun n => (n, renderVal (dist n)))

/-- The mutable state of either search loop. -/
structure SearchState where
  pq : List Entry
  dist : String → Option ℚ
  prev : List (String × String)
  visitedL : List String
  steps : List PathStep

/-- Result of the fuelled loop: `out` marks fuel exhaustion (shown impossible
on well-formed input), `err` a heuristic `KeyError`, `done` normal
termination (frontier empty, or `break` at the target). -/
inductive LoopRes where
  | out : LoopRes
  | err : String → LoopRes
  | done : SearchState → LoopRes

/-- The state after one successful relaxation of `nbr` through `cur`. -/
def relaxUpd (st : SearchState) (cur nbr : String) (d hv : ℚ) : SearchState :=
  { st with
    dist := fun n => if n = nbr then some d else st.dist n,
    prev := updPrev st.prev nbr cur,
    pq := st.pq ++ [⟨d + hv, d, nbr⟩] }

/-- The neighbor loop of both searches: skip settled neighbors, compute
`new_dist = distances[current] + weight`, and on improvement update the
distance and predecessor and push a frontier entry.  `h` is the heuristic
(`fun _ => .ok 0` for dijkstra); its `KeyError` aborts the request, exactly
like the Python exception. -/
def relaxList (h : String → Except String ℚ) (cur : String) :
    List (String × ℚ) → SearchState → Except String SearchState
  | [], st => .ok st
  | (nbr, w) :: rest, st =>
    if nbr ∈ st.visitedL then relaxList h cur rest st
    else
      let nd := (st.dist cur).map (· + w)
      if optLt nd (st.dist nbr) then
        match nd with
        | none => relaxList h cur rest st
        | some d =>
          match h nbr with
          | .error k => .error k
          | .ok hv =>
            relaxList h cur rest (relaxUpd st cur nbr d hv)
      else relaxList h cur rest st

/-- The settlement of a popped node: remove it from the frontier, append it to
the settled list, and record a snapshot (lines 104-112 / 158-166 of the
source: `visited.add(current)` followed by `steps.append({...})`). -/
def settleState (nodes : List String) (st : SearchState) (e : Entry) (rest : List Entry) :
    SearchState :=
  { st with
    pq := rest,
    visitedL := st.visitedL ++ [e.node],
    steps := st.steps ++
      [⟨e.node, st.visitedL ++ [e.node], renderDistances nodes st.dist, st.prev⟩] }

/-- The `while pq:` loop shared by `Graph.dijkstra` and `Graph.astar`: pop a
minimal entry; a settled node is skipped without a snapshot (lazy deletion);
otherwise settle it, record a snapshot, `break` if it is the target, else
relax its neighbors. -/
def searchLoop (nodes : List String) (adj : String → List (String × ℚ)) (endNode : String)
    (h : String → Except String ℚ) : ℕ → SearchState → LoopRes
  | 0, _ => .out
  | fuel + 1, st =>
    match popMin st.pq with
    | none => .done st
    | some (e, rest) =>
      if e.node ∈ st.visitedL then
        searchLoop nodes adj endNode h fuel { st with pq := rest }
      else
        let st1 := settleState nodes st e rest
        if e.node = endNode then .done st1
        else
          match relaxList h e.node (adj e.node) st1 with
          | .error k => .err k
          | .ok st2 => searchLoop nodes adj endNode h fuel st2

/-- The reconstruction loop `while current: path.insert(0, current); current =
previous.get(current)`.  Note Python truthiness: the loop stops on `None`
*and* on the empty string. -/
def walkBack (prev : List (String × String)) : ℕ → Option String → List String → List String
  | 0, _, acc => acc
  | _ + 1, none, acc => acc
  | fuel + 1, some c, acc =>
    if c = "" then acc else walkBack prev fuel (lookupKV prev c) (c :: acc)

/-- Path reconstruction: run the backward walk only `if end in previous or
start == end`. -/
def reconstructPath (prev : List (String × String)) (start endNode : String) (fuel : ℕ) :
    List String :=
  if (lookupKV prev endNode).isSome ∨ start = endNode then walkBack prev fuel (some endNode) []
  else []

/-- Fuel for the main loop: the number of iterations is bounded by the number
of entries ever pushed, at most `1 + 2 * |edges|` (proved below). -/
def searchFuel (g : Graph) : ℕ := 2 * g.edges.length + 2

/-- `Graph.dijkstra`: initial distance map `inf` everywhere except
`start ↦ 0`, initial frontier `[(0, start)]`. -/
def Graph.dijkstra (g : Graph) (start endNode : String) : List String × List PathStep :=
  let st0 : SearchState :=
    ⟨[⟨0, 0, start⟩], fun n => if n = start then some 0 else none, [], [], []⟩
  match searchLoop g.nodes g.adj endNode (fun _ => .ok 0) (searchFuel g) st0 with
  | .done st => (reconstructPath st.prev start endNode (g.nodes.length + 1), st.steps)
  | _ => ([], [])

/-- The A* heuristic closure: Euclidean distance between the node's and the
target's positions, divided by 10, with `sq` standing for `math.sqrt`.  A
missing dictionary entry is a `KeyError` whose `str()` is the repr of the
missing key: for a key free of quotes and backslashes that is the key wrapped
in single quotes (`\x27` below is the apostrophe). -/
def heuristicOf (node_positions : List (String × NodePosition)) (sq : ℚ → ℚ)
    (endNode : String) (node_id : String) : Except String ℚ :=
  match lookupKV node_positions node_id with
  | none => .error ("\x27" ++ node_id ++ "\x27")
  | some node_pos =>
    match lookupKV node_positions endNode with
    | none => .error ("\x27" ++ endNode ++ "\x27")
    | some end_pos =>
      .ok (sq ((end_pos.x - node_pos.x) ^ 2 + (end_pos.y - node_pos.y) ^ 2) / 10)

/-- `Graph.astar`: same loop as dijkstra with frontier entries
`(f_score, new_dist, node)`; `heuristic(start)` is evaluated while building
the initial frontier, so a missing start or target position fails before the
loop runs. -/
def Graph.astar (g : Graph) (start endNode : String)
    (node_positions : List (String × NodePosition)) (sq : ℚ → ℚ) :
    Except String (List String × List PathStep) :=
  let h := heuristicOf node_positions sq endNode
  match h start with
  | .error k => .error k
  | .ok h0 =>
    let st0 : SearchState :=
      ⟨[⟨h0, 0, start⟩], fun n => if n = start then some 0 else none, [], [], []⟩
    match searchLoop g.nodes g.adj endNode h (searchFuel g) st0 with
    | .done st => .ok (reconstructPath st.prev start endNode (g.nodes.length + 1), st.steps)
    | .err k => .error k
    | .out => .ok ([], [])

/-- The parsed request body (`class RouteRequest`); `end` is a Lean keyword,
written `end_`. -/
structure RouteRequest where
  nodes : List String
  edges : List Edge
  start : String
  end_ : String
  algorithm : String
  weightType : String
  nodePositions : List (String × NodePosition)

/-- The JSON body returned by `/calculate-route` on HTTP 200.  The no-path
response carries a `message` field, the success response does not. -/
structure RouteResponse where
  success : Bool
  message : Option String
  path : List String
  steps : List PathStep
  totalDistance : ℚ
  totalTraffic : ℚ
deriving DecidableEq

/-- A handler outcome: a JSON response, or an `HTTPException` with a status
code and detail string. -/
inductive Outcome where
  | ok : RouteResponse → Outcome
  | httpError : ℕ → String → Outcome
deriving DecidableEq

/-- Python's `round(x, 2)`: round-half-to-even at two decimals (binary float
representation artifacts are outside the rational model; every total a claim
mentions is exact at two decimals). -/
def round2 (q : ℚ) : ℚ :=
  let m := q * 100
  let fl : ℤ := ⌊m⌋
  let fr : ℚ := m - fl
  (if fr < 1 / 2 then (fl : ℚ)
   else if 1 / 2 < fr then (fl : ℚ) + 1
   else if fl % 2 = 0 then (fl : ℚ) else (fl : ℚ) + 1) / 100

/-- The edge test of the totals loop, either orientation. -/
def edgeMatch (e : Edge) (a b : String) : Bool :=
  (e.from_ == a && e.«to» == b) || (e.«to» == a && e.from_ == b)

/-- The totals loop of `calculate_route`: for each consecutive pair of the
path, the first matching edge of the request contributes its raw distance and
traffic (`break` after the first match; no contribution when nothing
matches). -/
def pathTotals (edges : List Edge) (path : List String) : ℚ × ℚ :=
  (List.range (path.length - 1)).foldl
    (fun acc i =>
      match edges.find? (fun e => edgeMatch e (path.getD i "") (path.getD (i + 1) "")) with
      | some e => (acc.1 + e.distance, acc.2 + e.traffic)
      | none => acc)
    (0, 0)

/-- The algorithm dispatch inside the handler's `try` block: the graph is
built from the request and the named algorithm runs; any other name raises
`HTTPException(400, "Invalid algorithm")`, whose `str()` is
`"400: Invalid algorithm"` once the outer `except` catches it. -/
def runAlgorithm (sq : ℚ → ℚ) (req : RouteRequest) :
    Except String (List String × List PathStep) :=
  if req.algorithm = "dijkstra" then
    Except.ok (Graph.dijkstra ⟨req.nodes, req.edges, req.weightType⟩ req.start req.end_)
  else if req.algorithm = "astar" then
    Graph.astar ⟨req.nodes, req.edges, req.weightType⟩ req.start req.end_
      req.nodePositions sq
  else Except.error "400: Invalid algorithm"

/-- The `/calculate-route` handler.  The `try/except` boundary converts any
exception to HTTP 500 with the stringified exception as detail: a heuristic
`KeyError` yields the repr-quoted missing key, and the `HTTPException(400,
"Invalid algorithm")` raised inside `try` is itself caught and re-raised as
`500` with detail `"400: Invalid algorithm"`. -/
def calculate_route (sq : ℚ → ℚ) (req : RouteRequest) : Outcome :=
  match runAlgorithm sq req with
  | .error k => .httpError 500 k
  | .ok (path, steps) =>
    if path.isEmpty then
      .ok ⟨false, some "No path found between selected nodes", [], [], 0, 0⟩
    else
      let t := pathTotals req.edges path
      .ok ⟨true, none, path, steps, round2 t.1, round2 t.2⟩

/-- A walk through the weighted adjacency structure from one node to another,
together with its summed policy weight.  Simple paths are walks, so
minimality over all walks implies minimality over all paths. -/
inductive IsWalk (adj : String → List (String × ℚ)) : String → String → ℚ → Prop where
  | nil (u : String) : IsWalk adj u u 0
  | cons {u v t : String} {w c : ℚ} :
      (v, w) ∈ adj u → IsWalk adj v t c → IsWalk adj u t (w + c)

/-- A node list realised as a walk: consecutive elements joined by adjacency
entries whose weights sum to the given cost. -/
inductive IsChain (adj : String → List (String × ℚ)) : List String → ℚ → Prop where
  | single (u : String) : IsChain adj [u] 0
  | cons {u v : String} {rest : List String} {w c : ℚ} :
      (v, w) ∈ adj u → IsChain adj (v :: rest) c → IsChain adj (u :: v :: rest) (w + c)

/-- Index of the first occurrence of a string in a list (length if absent). -/
def posOf : List String → String → ℕ
  | [], _ => 0
  | a :: l, x => if x = a then 0 else posOf l x + 1

/-- Termination potential of the main loop: frontier size plus the total
degree of the unsettled nodes. -/
def phiPot (nodes : List String) (adj : String → List (String × ℚ)) (st : SearchState) : ℕ :=
  st.pq.length +
    ((nodes.filter (fun n => decide (n ∉ st.visitedL))).map (fun n => (adj n).length)).sum


/-- The internal order on possibly-infinite distances: `none` is `inf`. -/
def optLe (a b : Option ℚ) : Prop :=
  ∀ c, b = some c → ∃ c2, a = some c2 ∧ c2 ≤ c

/-- The inductive invariant of `searchLoop`, shared by dijkstra and A*.  It
relates the frontier, the internal distance map, the predecessor map and the
settled list. -/
structure GInv (nodes : List String) (adj : String → List (String × ℚ))
    (start endNode : String) (h : String → Except String ℚ) (st : SearchState) : Prop where
  visNodup : st.visitedL.Nodup
  visSub : ∀ n ∈ st.visitedL, n ∈ nodes
  stepsCur : st.steps.map PathStep.current = st.visitedL
  visStart : st.visitedL ≠ [] → start ∈ st.visitedL
  initState : st.visitedL = [] →
    st.pq ≠ [] ∧ (∀ e ∈ st.pq, e.node = start ∧ e.p2 = 0) ∧
    (∀ n, st.dist n = if n = start then some 0 else none) ∧ st.prev = [] ∧ st.steps = []
  distStart : st.dist start = some 0
  prevStart : lookupKV st.prev start = none
  pqNode : ∀ e ∈ st.pq, e.node ∈ nodes
  pqDist : ∀ e ∈ st.pq, ∃ c, st.dist e.node = some c ∧ c ≤ e.p2
  hEntry : ∀ e ∈ st.pq, h e.node = Except.ok (e.p1 - e.p2)
  distNone : ∀ n, st.dist n = none ↔ (n ≠ start ∧ lookupKV st.prev n = none)
  prevConsist : ∀ n p, lookupKV st.prev n = some p → p ∈ st.visitedL ∧
    ∃ w cp, (n, w) ∈ adj p ∧ st.dist p = some cp ∧ st.dist n = some (cp + w)
  prevIdx : ∀ n p, lookupKV st.prev n = some p → n ∈ st.visitedL →
    posOf st.visitedL p < posOf st.visitedL n
  visDist : ∀ v ∈ st.visitedL, ∃ c, st.dist v = some c
  unsettledEntry : ∀ u c, st.dist u = some c → u ∉ st.visitedL →
    ∃ e ∈ st.pq, e.node = u ∧ e.p2 = c
  distWalk : ∀ n c, st.dist n = some c → IsWalk adj start n c

/-- Invariant properties of the recorded snapshot trace. -/
structure TraceInv (nodes : List String) (adj : String → List (String × ℚ))
    (start : String) (st : SearchState) : Prop where
  snapSentinel : ∀ s ∈ st.steps, ∀ n ∈ nodes, ∃ v, lookupKV s.distances n = some v ∧
    ((n = start ∨ (lookupKV s.previous n).isSome = true) → IsWalk adj start n v) ∧
    ((n ≠ start ∧ lookupKV s.previous n = none) → v = 999999)
  headVisited : ∀ s, st.steps.head? = some s → s.visited = [s.current]
  chainVisited : ∀ k s s2, st.steps[k]? = some s → st.steps[k + 1]? = some s2 →
    s2.visited = s.visited ++ [s2.current]
  pairMono : ∀ k s s2, st.steps[k]? = some s → st.steps[k + 1]? = some s2 → ∀ n ∈ nodes,
    ∃ v v2, lookupKV s.distances n = some v ∧ lookupKV s2.distances n = some v2 ∧
      (v2 ≤ v ∨ (v = 999999 ∧ n ≠ start ∧ lookupKV s.previous n = none)) ∧
      (n ∈ s.visited → v2 = v)
  lastLink : ∀ s, st.steps.getLast? = some s →
    s.visited = st.visitedL ∧
    ∀ n ∈ nodes, ∃ o, lookupKV s.distances n = some (renderVal o) ∧
      optLe (st.dist n) o ∧
      (o = none ↔ (n ≠ start ∧ lookupKV s.previous n = none)) ∧
      (n ∈ s.visited → st.dist n = o ∧ o ≠ none)

/-- Every settled node other than the target has had all its adjacency entries
relaxed: each neighbor is settled too, or carries a distance bounded by the
settled distance plus the edge weight. -/
def Processed (adj : String → List (String × ℚ)) (endNode : String)
    (st : SearchState) : Prop :=
  ∀ v ∈ st.visitedL, v = endNode ∨ ∀ nbr w, (nbr, w) ∈ adj v →
    nbr ∈ st.visitedL ∨ ∃ cv cn, st.dist v = some cv ∧ st.dist nbr = some cn ∧ cn ≤ cv + w

/-- The dijkstra-specific optimality invariant: every settled node carries a
distance below the cost of every walk reaching it. -/
def SettledOpt (adj : String → List (String × ℚ)) (start : String)
    (st : SearchState) : Prop :=
  ∀ v ∈ st.visitedL, ∀ cv, st.dist v = some cv →
    ∀ c2, IsWalk adj start v c2 → cv ≤ c2


/-! ### Projections of a handler outcome, used to state the claims -/

/-- The `success` flag of an HTTP-200 response (`false` for an `HTTPException`). -/
def outSuccess : Outcome → Bool
  | .ok r => r.success
  | .httpError _ _ => false

/-- The `path` of an HTTP-200 response. -/
def outPath : Outcome → List String
  | .ok r => r.path
  | .httpError _ _ => []

/-- The `totalDistance` of an HTTP-200 response. -/
def outTotalDistance : Outcome → ℚ
  | .ok r => r.totalDistance
  | .httpError _ _ => 0

/-- The `totalTraffic` of an HTTP-200 response. -/
def outTotalTraffic : Outcome → ℚ
  | .ok r => r.totalTraffic
  | .httpError _ _ => 0

/-! ### Concrete graphs and requests the claims refer to -/

/-- The 4-node square graph of the round-trip example: unit edges around the
square and a heavy direct edge A-D. -/
def squareGraph : Graph :=
  ⟨["A", "B", "C", "D"],
   [⟨"A", "B", 1, 0⟩, ⟨"B", "C", 1, 0⟩, ⟨"C", "D", 1, 0⟩, ⟨"A", "D", 5, 0⟩],
   "distance"⟩

/-- The round-trip request: dijkstra from A to D on the square graph under the
distance policy. -/
def squareReq : RouteRequest :=
  ⟨squareGraph.nodes, squareGraph.edges, "A", "D", "dijkstra", "distance", []⟩

/-- A graph whose optimal A-to-B route passes through a node named `""`. -/
def emptyNameGraph : Graph :=
  ⟨["A", "", "B"], [⟨"A", "", 1, 0⟩, ⟨"", "B", 1, 0⟩], "distance"⟩

/-- A request whose target C lies in a different component than the start A. -/
def unreachableReq : RouteRequest :=
  ⟨["A", "B", "C"], [⟨"A", "B", 1, 0⟩], "A", "C", "dijkstra", "distance", []⟩

/-- An edgeless two-node request from A to B (B trivially unreachable). -/
def edgelessReq : RouteRequest :=
  ⟨["A", "B"], [], "A", "B", "dijkstra", "distance", []⟩

/-- A request carrying the unrecognized weight policy `"bogus"`. -/
def bogusPolicyReq : RouteRequest :=
  ⟨["A", "B"], [⟨"A", "B", 1, 3⟩], "A", "B", "dijkstra", "bogus", []⟩

/-- A request with `start == end == ""`, the empty-string node. -/
def emptyStartReq : RouteRequest :=
  ⟨[""], [], "", "", "dijkstra", "distance", []⟩

/-- A one-node request with `start == end == "A"`. -/
def selfReq : RouteRequest :=
  ⟨["A"], [], "A", "A", "dijkstra", "distance", []⟩

/-- An astar request in which the target B has no entry in the positions map. -/
def missingEndPosReq : RouteRequest :=
  ⟨["A", "B"], [⟨"A", "B", 1, 0⟩], "A", "B", "astar", "distance", [("A", ⟨0, 0⟩)]⟩

/-- The same route requested with an unknown algorithm name. -/
def unknownAlgReq : RouteRequest :=
  ⟨["A", "B"], [⟨"A", "B", 1, 0⟩], "A", "B", "bfs", "distance", [("A", ⟨0, 0⟩)]⟩

/-- An astar request with an empty positions map (the start position lookup is
the first to fail). -/
def missingStartPosReq : RouteRequest :=
  ⟨["A", "B"], [], "A", "B", "astar", "distance", []⟩

/-- A two-node graph whose single edge outweighs the `999999` sentinel. -/
def hugeWeightGraph : Graph :=
  ⟨["A", "B"], [⟨"A", "B", 2000000, 0⟩], "distance"⟩

/-- An edgeless two-node astar request from A to B, both positioned. -/
def edgelessAstarReq : RouteRequest :=
  ⟨["A", "B"], [], "A", "B", "astar", "distance", [("A", ⟨0, 0⟩), ("B", ⟨1, 0⟩)]⟩

/-- A one-node astar request with `start == end == "A"` and A positioned. -/
def selfAstarReq : RouteRequest :=
  ⟨["A"], [], "A", "A", "astar", "distance", [("A", ⟨0, 0⟩)]⟩

/-- An astar request in which the intermediate node B of the only A-to-C route
has no entry in the positions map. -/
def missingMidPosReq : RouteRequest :=
  ⟨["A", "B", "C"], [⟨"A", "B", 1, 0⟩, ⟨"B", "C", 1, 0⟩], "A", "C", "astar", "distance",
   [("A", ⟨0, 0⟩), ("C", ⟨2, 0⟩)]⟩

/-- The fallback snapshot used when indexing a trace. -/
def noStep : PathStep := ⟨"", [], [], []⟩

/-! ### Order facts about frontier entries and `popMin` -/

theorem entryLe_iff (a b : Entry) : entryLe a b = true ↔
    a.p1 < b.p1 ∨ (a.p1 = b.p1 ∧ (a.p2 < b.p2 ∨ (a.p2 = b.p2 ∧ ¬ b.node < a.node))) := by
  unfold entryLe
  split_ifs with h1 h2 h3 h4
  · simp [h1]
  · have hne : a.p1 ≠ b.p1 := fun hc => absurd (hc ▸ h2) (lt_irrefl _)
    simp [h1, hne]
  · have he1 : a.p1 = b.p1 := le_antisymm (not_lt.mp h2) (not_lt.mp h1)
    simp [he1, h3, lt_irrefl]
  · have he1 : a.p1 = b.p1 := le_antisymm (not_lt.mp h2) (not_lt.mp h1)
    have hne : a.p2 ≠ b.p2 := fun hc => absurd (hc ▸ h4) (lt_irrefl _)
    simp [he1, h3, hne, lt_irrefl]
  · have he1 : a.p1 = b.p1 := le_antisymm (not_lt.mp h2) (not_lt.mp h1)
    have he2 : a.p2 = b.p2 := le_antisymm (not_lt.mp h4) (not_lt.mp h3)
    simp [he1, he2, lt_irrefl]

theorem entryLe_refl (a : Entry) : entryLe a a = true := by
  rw [entryLe_iff]
  exact Or.inr ⟨rfl, Or.inr ⟨rfl, lt_irrefl _⟩⟩

theorem entryLe_total (a b : Entry) : entryLe a b = true ∨ entryLe b a = true := by
  rw [entryLe_iff, entryLe_iff]
  rcases lt_trichotomy a.p1 b.p1 with h1 | h1 | h1
  · exact Or.inl (Or.inl h1)
  · rcases lt_trichotomy a.p2 b.p2 with h2 | h2 | h2
    · exact Or.inl (Or.inr ⟨h1, Or.inl h2⟩)
    · by_cases hn : b.node < a.node
      · exact Or.inr (Or.inr ⟨h1.symm, Or.inr ⟨h2.symm, fun hc => absurd (lt_trans hc hn)
          (lt_irrefl _)⟩⟩)
      · exact Or.inl (Or.inr ⟨h1, Or.inr ⟨h2, hn⟩⟩)
    · exact Or.inr (Or.inr ⟨h1.symm, Or.inl h2⟩)
  · exact Or.inr (Or.inl h1)

theorem entryLe_trans {a b c : Entry} (hab : entryLe a b = true) (hbc : entryLe b c = true) :
    entryLe a c = true := by
  rw [entryLe_iff] at hab hbc ⊢
  rcases hab with h1 | ⟨e1, hab⟩
  · rcases hbc with h2 | ⟨e2, _⟩
    · exact Or.inl (lt_trans h1 h2)
    · exact Or.inl (e2 ▸ h1)
  · rcases hbc with h2 | ⟨e2, hbc⟩
    · exact Or.inl (e1 ▸ h2)
    · refine Or.inr ⟨e1.trans e2, ?_⟩
      rcases hab with h1 | ⟨f1, hab⟩
      · rcases hbc with h2 | ⟨f2, _⟩
        · exact Or.inl (lt_trans h1 h2)
        · exact Or.inl (f2 ▸ h1)
      · rcases hbc with h2 | ⟨f2, hbc⟩
        · exact Or.inl (f1 ▸ h2)
        · refine Or.inr ⟨f1.trans f2, fun hc => ?_⟩
          exact absurd (lt_of_lt_of_le hc (not_lt.mp hab)) (not_lt.mpr (not_lt.mp hbc))

theorem entryLe_p1 {a b : Entry} (h : entryLe a b = true) : a.p1 ≤ b.p1 := by
  rw [entryLe_iff] at h
  rcases h with h | ⟨e, _⟩
  · exact le_of_lt h
  · exact le_of_eq e

theorem foldl_selMin_mem (xs : List Entry) : ∀ x, xs.foldl selMin x ∈ x :: xs := by
  induction xs with
  | nil => intro x; simp
  | cons y ys ih =>
    intro x
    have h := ih (selMin x y)
    have hsel : selMin x y = x ∨ selMin x y = y := by
      unfold selMin; split
      · exact Or.inl rfl
      · exact Or.inr rfl
    simp only [List.foldl_cons]
    rcases List.mem_cons.mp h with h | h
    · rcases hsel with hs | hs <;> rw [h, hs] <;> simp
    · simp [h]

theorem foldl_selMin_le (xs : List Entry) :
    ∀ x y, y ∈ x :: xs → entryLe (xs.foldl selMin x) y = true := by
  induction xs with
  | nil =>
    intro x y hy
    rcases List.mem_cons.mp hy with rfl | hy
    · exact entryLe_refl _
    · cases hy
  | cons z zs ih =>
    intro x y hy
    have hx : entryLe (selMin x z) x = true := by
      unfold selMin; split
      · exact entryLe_refl x
      · rcases entryLe_total x z with h | h
        · simp_all
        · exact h
    have hz : entryLe (selMin x z) z = true := by
      unfold selMin; split
      · assumption
      · exact entryLe_refl z
    simp only [List.foldl_cons]
    have hhead : entryLe (zs.foldl selMin (selMin x z)) (selMin x z) = true :=
      ih (selMin x z) (selMin x z) (List.mem_cons_self _ _)
    rcases List.mem_cons.mp hy with rfl | hy2
    · exact entryLe_trans hhead hx
    · rcases List.mem_cons.mp hy2 with rfl | hy3
      · exact entryLe_trans hhead hz
      · exact ih (selMin x z) y (List.mem_cons_of_mem _ hy3)

theorem popMin_none_iff (l : List Entry) : popMin l = none ↔ l = [] := by
  cases l <;> simp [popMin, pqMin]

theorem popMin_spec {l : List Entry} {m : Entry} {rest : List Entry}
    (h : popMin l = some (m, rest)) :
    m ∈ l ∧ rest = l.erase m ∧ ∀ x ∈ l, entryLe m x = true := by
  cases l with
  | nil => simp [popMin, pqMin] at h
  | cons a as =>
    simp only [popMin, pqMin, Option.some.injEq, Prod.mk.injEq] at h
    obtain ⟨hm, hr⟩ := h
    subst hm
    refine ⟨foldl_selMin_mem as a, hr.symm, fun x hx => foldl_selMin_le as a x hx⟩

/-! ### Lookup and update lemmas for the modelled dictionaries -/

theorem lookupKV_append_none {α : Type} {l1 : List (String × α)} (l2 : List (String × α))
    {x : String} (h : lookupKV l1 x = none) : lookupKV (l1 ++ l2) x = lookupKV l2 x := by
  induction l1 with
  | nil => rfl
  | cons p t ih =>
    obtain ⟨k, v⟩ := p
    simp only [lookupKV] at h ⊢
    by_cases hx : x = k
    · simp [hx] at h
    · simp only [if_neg hx] at h ⊢
      exact ih h

theorem lookupKV_append_some {α : Type} {l1 : List (String × α)} (l2 : List (String × α))
    {x : String} {v : α} (h : lookupKV l1 x = some v) :
    lookupKV (l1 ++ l2) x = some v := by
  induction l1 with
  | nil => simp [lookupKV] at h
  | cons p t ih =>
    obtain ⟨k, w⟩ := p
    simp only [lookupKV] at h ⊢
    by_cases hx : x = k
    · simpa [hx] using h
    · simp only [if_neg hx] at h ⊢
      exact ih h

theorem lookupKV_map_upd_self {l : List (String × String)} {k : String} (v : String)
    (hk : (lookupKV l k).isSome = true) :
    lookupKV (l.map (fun p => if p.1 = k then (k, v) else p)) k = some v := by
  induction l with
  | nil => simp [lookupKV] at hk
  | cons p t ih =>
    obtain ⟨k1, v1⟩ := p
    simp only [List.map_cons]
    by_cases h1 : k1 = k
    · rw [if_pos h1]
      simp [lookupKV]
    · rw [if_neg h1]
      have hx : k ≠ k1 := fun hc => h1 hc.symm
      simp only [lookupKV, if_neg hx] at hk ⊢
      exact ih hk

theorem lookupKV_map_upd_ne {l : List (String × String)} {k x : String} (v : String)
    (hx : x ≠ k) :
    lookupKV (l.map (fun p => if p.1 = k then (k, v) else p)) x = lookupKV l x := by
  induction l with
  | nil => rfl
  | cons p t ih =>
    obtain ⟨k1, v1⟩ := p
    simp only [List.map_cons]
    by_cases h1 : k1 = k
    · rw [if_pos h1]
      have hxk1 : x ≠ k1 := fun hc => hx (hc.trans h1)
      simp only [lookupKV, if_neg hx, if_neg hxk1]
      exact ih
    · rw [if_neg h1]
      by_cases h2 : x = k1
      · simp [lookupKV, h2]
      · simp only [lookupKV, if_neg h2]
        exact ih

theorem lookupKV_updPrev (l : List (String × String)) (k v x : String) :
    lookupKV (updPrev l k v) x = if x = k then some v else lookupKV l x := by
  unfold updPrev
  split_ifs with hs hx hx
  · rw [hx]
    exact lookupKV_map_upd_self v hs
  · exact lookupKV_map_upd_ne v hx
  · rw [hx]
    have hnone : lookupKV l k = none := by
      cases hl : lookupKV l k
      · rfl
      · rw [hl] at hs; simp at hs
    rw [lookupKV_append_none _ hnone]
    simp [lookupKV]
  · cases hl : lookupKV l x
    · rw [lookupKV_append_none _ hl]
      simp [lookupKV, hx]
    · exact lookupKV_append_some _ hl

theorem lookupKV_render {nodes : List String} (dist : String → Option ℚ) {n : String}
    (hn : n ∈ nodes) :
    lookupKV (renderDistances nodes dist) n = some (renderVal (dist n)) := by
  induction nodes with
  | nil => cases hn
  | cons a l ih =>
    by_cases h : n = a
    · subst h
      simp [renderDistances, lookupKV]
    · rcases List.mem_cons.mp hn with rfl | hn2
      · simp at h
      · simpa [renderDistances, lookupKV, h] using ih hn2

/-! ### Position of a string in a list (settlement index) -/

theorem posOf_lt_length {l : List String} {x : String} (h : x ∈ l) : posOf l x < l.length := by
  induction l with
  | nil => cases h
  | cons a t ih =>
    by_cases hx : x = a
    · simp [posOf, hx]
    · rcases List.mem_cons.mp h with rfl | h2
      · simp at hx
      · simpa [posOf, hx, Nat.succ_lt_succ_iff] using ih h2

theorem posOf_append_left {l : List String} (l2 : List String) {x : String} (h : x ∈ l) :
    posOf (l ++ l2) x = posOf l x := by
  induction l with
  | nil => cases h
  | cons a t ih =>
    by_cases hx : x = a
    · simp [posOf, hx]
    · rcases List.mem_cons.mp h with rfl | h2
      · simp at hx
      · simpa [posOf, hx] using ih h2

theorem posOf_append_self {l : List String} {a : String} (h : a ∉ l) :
    posOf (l ++ [a]) a = l.length := by
  induction l with
  | nil => simp [posOf]
  | cons b t ih =>
    have hab : a ≠ b := fun hc => h (hc ▸ List.mem_cons_self b t)
    have ht : a ∉ t := fun hc => h (List.mem_cons_of_mem _ hc)
    simp [posOf, hab, ih ht]

/-! ### Walks and chains -/

theorem IsWalk.snoc {adj : String → List (String × ℚ)} {s u v : String} {c w : ℚ}
    (hw : IsWalk adj s u c) (he : (v, w) ∈ adj u) : IsWalk adj s v (c + w) := by
  induction hw with
  | nil x =>
    have := IsWalk.cons he (IsWalk.nil v)
    simpa [add_comm] using this
  | cons hstep _ ih =>
    have := IsWalk.cons hstep (ih he)
    simpa [add_assoc] using this

theorem IsWalk.nonneg {adj : String → List (String × ℚ)}
    (hnn : ∀ u v w, (v, w) ∈ adj u → 0 ≤ w) {s t : String} {c : ℚ}
    (hw : IsWalk adj s t c) : 0 ≤ c := by
  induction hw with
  | nil => exact le_refl 0
  | cons hstep _ ih => exact add_nonneg (hnn _ _ _ hstep) ih

theorem IsChain.cast {adj : String → List (String × ℚ)} {l : List String} {c c2 : ℚ}
    (h : IsChain adj l c) (he : c = c2) : IsChain adj l c2 := he ▸ h

theorem IsChain.snocChain {adj : String → List (String × ℚ)} {l : List String} {c : ℚ}
    (h : IsChain adj l c) :
    ∀ {p n : String} {w : ℚ}, l.getLast? = some p → (n, w) ∈ adj p →
      IsChain adj (l ++ [n]) (c + w) := by
  induction h with
  | single u =>
    intro p n w hl he
    simp only [List.getLast?_singleton, Option.some.injEq] at hl
    subst hl
    exact (IsChain.cons he (IsChain.single n)).cast (by ring)
  | cons hstep _ ih =>
    intro p n w hl he
    rw [List.getLast?_cons_cons] at hl
    have := IsChain.cons hstep (ih hl he)
    simpa [add_assoc] using this


/-! ### The adjacency structure -/

theorem adj_eq_bind (g : Graph) (n : String) :
    g.adj n = g.edges.flatMap (fun e =>
      (if e.from_ = n then [(e.«to», g.get_weight e)] else []) ++
      (if e.«to» = n then [(e.from_, g.get_weight e)] else [])) := by
  suffices h : ∀ (l : List Edge) (acc : List (String × ℚ)),
      l.foldl (fun acc e =>
        acc ++ (if e.from_ = n then [(e.«to», g.get_weight e)] else [])
            ++ (if e.«to» = n then [(e.from_, g.get_weight e)] else [])) acc =
      acc ++ l.flatMap (fun e =>
        (if e.from_ = n then [(e.«to», g.get_weight e)] else []) ++
        (if e.«to» = n then [(e.from_, g.get_weight e)] else [])) by
    unfold Graph.adj
    rw [h g.edges []]
    simp
  intro l
  induction l with
  | nil => intro acc; simp
  | cons e t ih =>
    intro acc
    rw [List.foldl_cons, ih, List.flatMap_cons]
    simp [List.append_assoc]

theorem mem_adj_iff {g : Graph} {u v : String} {w : ℚ} :
    (v, w) ∈ g.adj u ↔ ∃ e ∈ g.edges,
      ((e.from_ = u ∧ e.«to» = v) ∨ (e.«to» = u ∧ e.from_ = v)) ∧ w = g.get_weight e := by
  rw [adj_eq_bind]
  simp only [List.mem_flatMap, List.mem_append]
  constructor
  · rintro ⟨e, he, hmem | hmem⟩
    · by_cases hc : e.from_ = u
      · rw [if_pos hc] at hmem
        simp only [List.mem_singleton, Prod.mk.injEq] at hmem
        exact ⟨e, he, Or.inl ⟨hc, hmem.1.symm⟩, hmem.2⟩
      · rw [if_neg hc] at hmem; cases hmem
    · by_cases hc : e.«to» = u
      · rw [if_pos hc] at hmem
        simp only [List.mem_singleton, Prod.mk.injEq] at hmem
        exact ⟨e, he, Or.inr ⟨hc, hmem.1.symm⟩, hmem.2⟩
      · rw [if_neg hc] at hmem; cases hmem
  · rintro ⟨e, he, hor, hw⟩
    refine ⟨e, he, ?_⟩
    rcases hor with ⟨h1, h2⟩ | ⟨h1, h2⟩
    · left; rw [if_pos h1]; simp [h2, hw]
    · right; rw [if_pos h1]; simp [h2, hw]

theorem adj_target_mem {g : Graph}
    (hep : ∀ e ∈ g.edges, e.from_ ∈ g.nodes ∧ e.«to» ∈ g.nodes)
    {u v : String} {w : ℚ} (h : (v, w) ∈ g.adj u) : v ∈ g.nodes := by
  rcases mem_adj_iff.mp h with ⟨e, he, hor, _⟩
  rcases hor with ⟨_, h2⟩ | ⟨_, h2⟩
  · exact h2 ▸ (hep e he).2
  · exact h2 ▸ (hep e he).1

theorem get_weight_nonneg {g : Graph} {e : Edge} (hd : 0 ≤ e.distance) (ht : 0 ≤ e.traffic) :
    0 ≤ g.get_weight e := by
  unfold Graph.get_weight
  split_ifs
  · exact hd
  · exact ht
  · linarith

theorem adj_weight_nonneg {g : Graph}
    (hnn : ∀ e ∈ g.edges, 0 ≤ e.distance ∧ 0 ≤ e.traffic) :
    ∀ u v w, (v, w) ∈ g.adj u → 0 ≤ w := by
  intro u v w h
  rcases mem_adj_iff.mp h with ⟨e, he, _, hw⟩
  exact hw ▸ get_weight_nonneg (hnn e he).1 (hnn e he).2

theorem sum_map_add (l : List String) (f g2 : String → ℕ) :
    (l.map (fun n => f n + g2 n)).sum = (l.map f).sum + (l.map g2).sum := by
  induction l with
  | nil => rfl
  | cons a t ih => simp [ih]; omega

theorem sum_indicator_zero {l : List String} {x : String} (h : x ∉ l) :
    (l.map (fun n => if x = n then 1 else 0)).sum = 0 := by
  induction l with
  | nil => rfl
  | cons a t ih =>
    have hxa : x ≠ a := fun hc => h (hc ▸ List.mem_cons_self a t)
    have ht : x ∉ t := fun hc => h (List.mem_cons_of_mem _ hc)
    simp [hxa, ih ht]

theorem sum_indicator_one {l : List String} {x : String} (hnd : l.Nodup) (h : x ∈ l) :
    (l.map (fun n => if x = n then 1 else 0)).sum = 1 := by
  induction l with
  | nil => cases h
  | cons a t ih =>
    by_cases hxa : x = a
    · subst hxa
      have : x ∉ t := (List.nodup_cons.mp hnd).1
      simp [sum_indicator_zero this]
    · rcases List.mem_cons.mp h with rfl | h2
      · simp at hxa
      · simp [hxa, ih (List.nodup_cons.mp hnd).2 h2]

theorem adj_length_eq (g : Graph) (n : String) :
    (g.adj n).length =
      (g.edges.map (fun e =>
        (if e.from_ = n then 1 else 0) + (if e.«to» = n then 1 else 0))).sum := by
  rw [adj_eq_bind]
  induction g.edges with
  | nil => rfl
  | cons e t ih =>
    simp only [List.flatMap_cons, List.length_append, List.map_cons, List.sum_cons, ih]
    congr 1
    split_ifs <;> simp

theorem sum_adj_lengths (g : Graph) (hnd : g.nodes.Nodup)
    (hep : ∀ e ∈ g.edges, e.from_ ∈ g.nodes ∧ e.«to» ∈ g.nodes) :
    (g.nodes.map (fun n => (g.adj n).length)).sum = 2 * g.edges.length := by
  have hswap : ∀ (es : List Edge), (∀ e ∈ es, e.from_ ∈ g.nodes ∧ e.«to» ∈ g.nodes) →
      (g.nodes.map (fun n => (es.map (fun e =>
        (if e.from_ = n then 1 else 0) + (if e.«to» = n then 1 else 0))).sum)).sum =
      2 * es.length := by
    intro es
    induction es with
    | nil => intro _; simp
    | cons e t ih =>
      intro hmem
      have he := hmem e (List.mem_cons_self e t)
      have ht : ∀ x ∈ t, x.from_ ∈ g.nodes ∧ x.«to» ∈ g.nodes :=
        fun x hx => hmem x (List.mem_cons_of_mem _ hx)
      simp only [List.map_cons, List.sum_cons]
      have hsplit : (g.nodes.map (fun n =>
          ((if e.from_ = n then 1 else 0) + (if e.«to» = n then 1 else 0)) +
            (t.map (fun e2 =>
              (if e2.from_ = n then 1 else 0) + (if e2.«to» = n then 1 else 0))).sum)).sum =
          (g.nodes.map (fun n =>
            (if e.from_ = n then 1 else 0) + (if e.«to» = n then 1 else 0))).sum +
          (g.nodes.map (fun n => (t.map (fun e2 =>
            (if e2.from_ = n then 1 else 0) + (if e2.«to» = n then 1 else 0))).sum)).sum :=
        sum_map_add g.nodes _ _
      rw [hsplit, ih ht]
      have hone : (g.nodes.map (fun n =>
          (if e.from_ = n then 1 else 0) + (if e.«to» = n then 1 else 0))).sum = 2 := by
        rw [sum_map_add g.nodes _ _, sum_indicator_one hnd he.1, sum_indicator_one hnd he.2]
      rw [hone]
      simp only [List.length_cons]
      omega
  calc (g.nodes.map (fun n => (g.adj n).length)).sum
      = (g.nodes.map (fun n => (g.edges.map (fun e =>
          (if e.from_ = n then 1 else 0) + (if e.«to» = n then 1 else 0))).sum)).sum := by
        simp only [adj_length_eq]
    _ = 2 * g.edges.length := hswap g.edges hep

/-! ### Facts about `optLt` and `optLe` -/

theorem optLt_some {a : ℚ} {o : Option ℚ} (h : optLt (some a) o = true) :
    ∀ b, o = some b → a < b := by
  intro b hb
  subst hb
  simpa [optLt] using h

theorem optLe_refl (a : Option ℚ) : optLe a a := fun c hc => ⟨c, hc, le_refl c⟩

theorem optLe_trans {a b c : Option ℚ} (h1 : optLe a b) (h2 : optLe b c) : optLe a c := by
  intro x hx
  obtain ⟨y, hy, hyx⟩ := h2 x hx
  obtain ⟨z, hz, hzy⟩ := h1 y hy
  exact ⟨z, hz, le_trans hzy hyx⟩


/-! ### Preservation of the invariants by one relaxation -/

theorem relaxUpd_dist (st : SearchState) (cur nbr : String) (d hv : ℚ) (n : String) :
    (relaxUpd st cur nbr d hv).dist n = if n = nbr then some d else st.dist n := rfl

theorem relaxUpd_prev (st : SearchState) (cur nbr : String) (d hv : ℚ) :
    (relaxUpd st cur nbr d hv).prev = updPrev st.prev nbr cur := rfl

theorem relaxUpd_pq (st : SearchState) (cur nbr : String) (d hv : ℚ) :
    (relaxUpd st cur nbr d hv).pq = st.pq ++ [⟨d + hv, d, nbr⟩] := rfl

theorem relaxUpd_visitedL (st : SearchState) (cur nbr : String) (d hv : ℚ) :
    (relaxUpd st cur nbr d hv).visitedL = st.visitedL := rfl

theorem relaxUpd_steps (st : SearchState) (cur nbr : String) (d hv : ℚ) :
    (relaxUpd st cur nbr d hv).steps = st.steps := rfl

theorem relaxUpd_GInv {nodes : List String} {adj : String → List (String × ℚ)}
    {start endNode : String} {h : String → Except String ℚ}
    (hadjT : ∀ u v w, (v, w) ∈ adj u → v ∈ nodes)
    {st : SearchState} {cur nbr : String} {w d hv cd : ℚ}
    (hg : GInv nodes adj start endNode h st)
    (hcur : cur ∈ st.visitedL)
    (hnbr : nbr ∉ st.visitedL)
    (hedge : (nbr, w) ∈ adj cur)
    (hcd : st.dist cur = some cd)
    (hd : d = cd + w)
    (hlt : ∀ c, st.dist nbr = some c → d < c)
    (hhv : h nbr = Except.ok hv) :
    GInv nodes adj start endNode h (relaxUpd st cur nbr d hv) := by
  have hvne : st.visitedL ≠ [] := by
    intro hc
    rw [hc] at hcur
    cases hcur
  have hns : nbr ≠ start := fun hc => hnbr (hc ▸ hg.visStart hvne)
  have hcurne : cur ≠ nbr := fun hc => hnbr (hc ▸ hcur)
  refine
    { visNodup := hg.visNodup
      visSub := hg.visSub
      stepsCur := hg.stepsCur
      visStart := hg.visStart
      initState := fun hc => absurd hcur (by
        rw [relaxUpd_visitedL] at hc
        rw [hc]
        exact List.not_mem_nil cur)
      distStart := ?_
      prevStart := ?_
      pqNode := ?_
      pqDist := ?_
      hEntry := ?_
      distNone := ?_
      prevConsist := ?_
      prevIdx := ?_
      visDist := ?_
      unsettledEntry := ?_
      distWalk := ?_ }
  · rw [relaxUpd_dist, if_neg (Ne.symm hns)]
    exact hg.distStart
  · rw [relaxUpd_prev, lookupKV_updPrev, if_neg (Ne.symm hns)]
    exact hg.prevStart
  · intro e he
    rw [relaxUpd_pq] at he
    rcases List.mem_append.mp he with he | he
    · exact hg.pqNode e he
    · simp only [List.mem_singleton] at he
      subst he
      exact hadjT cur nbr w hedge
  · intro e he
    rw [relaxUpd_pq] at he
    rcases List.mem_append.mp he with he | he
    · obtain ⟨c, hc, hle⟩ := hg.pqDist e he
      by_cases hen : e.node = nbr
      · refine ⟨d, ?_, ?_⟩
        · rw [relaxUpd_dist, if_pos hen]
        · rw [hen] at hc
          have := hlt c hc
          linarith
      · exact ⟨c, by rw [relaxUpd_dist, if_neg hen]; exact hc, hle⟩
    · simp only [List.mem_singleton] at he
      subst he
      exact ⟨d, by rw [relaxUpd_dist]; simp, le_refl d⟩
  · intro e he
    rw [relaxUpd_pq] at he
    rcases List.mem_append.mp he with he | he
    · exact hg.hEntry e he
    · simp only [List.mem_singleton] at he
      subst he
      show h nbr = Except.ok (d + hv - d)
      rw [add_sub_cancel_left]
      exact hhv
  · intro n
    by_cases hn : n = nbr
    · subst hn
      rw [relaxUpd_dist, if_pos rfl, relaxUpd_prev, lookupKV_updPrev, if_pos rfl]
      constructor
      · intro hc; cases hc
      · rintro ⟨_, hc⟩; cases hc
    · rw [relaxUpd_dist, if_neg hn, relaxUpd_prev, lookupKV_updPrev, if_neg hn]
      exact hg.distNone n
  · intro n p hp
    rw [relaxUpd_prev, lookupKV_updPrev] at hp
    by_cases hn : n = nbr
    · rw [if_pos hn] at hp
      have hpc : p = cur := by injection hp with hp2; exact hp2.symm
      subst hpc
      refine ⟨hcur, w, cd, hn ▸ hedge, ?_, ?_⟩
      · rw [relaxUpd_dist, if_neg hcurne]
        exact hcd
      · rw [relaxUpd_dist, if_pos hn, hd]
    · rw [if_neg hn] at hp
      obtain ⟨hpv, w2, cp, he2, hdp, hdn⟩ := hg.prevConsist n p hp
      have hpne : p ≠ nbr := fun hc => hnbr (hc ▸ hpv)
      refine ⟨hpv, w2, cp, he2, ?_, ?_⟩
      · rw [relaxUpd_dist, if_neg hpne]
        exact hdp
      · rw [relaxUpd_dist, if_neg hn]
        exact hdn
  · intro n p hp hn
    rw [relaxUpd_visitedL] at hn ⊢
    rw [relaxUpd_prev, lookupKV_updPrev] at hp
    by_cases hnn : n = nbr
    · exact absurd (hnn ▸ hn) hnbr
    · rw [if_neg hnn] at hp
      exact hg.prevIdx n p hp hn
  · intro v hv2
    rw [relaxUpd_visitedL] at hv2
    have hvn : v ≠ nbr := fun hc => hnbr (hc ▸ hv2)
    obtain ⟨c, hc⟩ := hg.visDist v hv2
    exact ⟨c, by rw [relaxUpd_dist, if_neg hvn]; exact hc⟩
  · intro u c hc hu
    rw [relaxUpd_visitedL] at hu
    by_cases hun : u = nbr
    · subst hun
      rw [relaxUpd_dist, if_pos rfl] at hc
      have hcd2 : c = d := by injection hc with hc2; exact hc2.symm
      refine ⟨⟨d + hv, d, u⟩, ?_, rfl, hcd2.symm⟩
      rw [relaxUpd_pq]
      exact List.mem_append_right _ (List.mem_singleton_self _)
    · rw [relaxUpd_dist, if_neg hun] at hc
      obtain ⟨e, he, hen, hp2⟩ := hg.unsettledEntry u c hc hu
      refine ⟨e, ?_, hen, hp2⟩
      rw [relaxUpd_pq]
      exact List.mem_append_left _ he
  · intro n c hc
    by_cases hn : n = nbr
    · subst hn
      rw [relaxUpd_dist, if_pos rfl] at hc
      have hcd2 : c = d := by injection hc with hc2; exact hc2.symm
      subst hcd2
      rw [hd]
      exact (hg.distWalk cur cd hcd).snoc hedge
    · rw [relaxUpd_dist, if_neg hn] at hc
      exact hg.distWalk n c hc


theorem relaxUpd_TraceInv {nodes : List String} {adj : String → List (String × ℚ)}
    {start : String} {st : SearchState} {cur nbr : String} {d hv : ℚ}
    (ht : TraceInv nodes adj start st)
    (hnbr : nbr ∉ st.visitedL)
    (hlt : ∀ c, st.dist nbr = some c → d < c) :
    TraceInv nodes adj start (relaxUpd st cur nbr d hv) := by
  refine
    { snapSentinel := ht.snapSentinel
      headVisited := ht.headVisited
      chainVisited := ht.chainVisited
      pairMono := ht.pairMono
      lastLink := ?_ }
  intro s hs
  obtain ⟨hsv, hlink⟩ := ht.lastLink s hs
  refine ⟨by rw [relaxUpd_visitedL]; exact hsv, fun n hn => ?_⟩
  obtain ⟨o, hlkp, hle, hiff, hsettled⟩ := hlink n hn
  refine ⟨o, hlkp, ?_, hiff, ?_⟩
  · by_cases hnn : n = nbr
    · subst hnn
      intro c2 hc2
      obtain ⟨c3, hc3, hle3⟩ := hle c2 hc2
      exact ⟨d, by rw [relaxUpd_dist, if_pos rfl], le_trans (le_of_lt (hlt c3 hc3)) hle3⟩
    · intro c2 hc2
      obtain ⟨c3, hc3, hle3⟩ := hle c2 hc2
      exact ⟨c3, by rw [relaxUpd_dist, if_neg hnn]; exact hc3, hle3⟩
  · intro hmem
    have hnv : n ∈ st.visitedL := hsv ▸ hmem
    have hnn : n ≠ nbr := fun hc => hnbr (hc ▸ hnv)
    obtain ⟨ho, hone⟩ := hsettled hmem
    exact ⟨by rw [relaxUpd_dist, if_neg hnn]; exact ho, hone⟩

theorem relaxList_spec {nodes : List String} {adj : String → List (String × ℚ)}
    {start endNode : String} {h : String → Except String ℚ}
    (hadjT : ∀ u v w, (v, w) ∈ adj u → v ∈ nodes) (cur : String) :
    ∀ (l : List (String × ℚ)) (st st2 : SearchState),
      GInv nodes adj start endNode h st →
      TraceInv nodes adj start st →
      cur ∈ st.visitedL →
      (∀ x ∈ l, x ∈ adj cur) →
      relaxList h cur l st = Except.ok st2 →
      GInv nodes adj start endNode h st2 ∧ TraceInv nodes adj start st2 ∧
      st2.visitedL = st.visitedL ∧ st2.steps = st.steps ∧
      st2.pq.length ≤ st.pq.length + l.length ∧
      (∀ n, optLe (st2.dist n) (st.dist n)) ∧
      (∀ n, n ∈ st.visitedL → st2.dist n = st.dist n) ∧
      (∀ n, (lookupKV st.prev n).isSome = true → (lookupKV st2.prev n).isSome = true) ∧
      (∀ nbr w, (nbr, w) ∈ l → nbr ∈ st2.visitedL ∨
        ∃ cv cn, st2.dist cur = some cv ∧ st2.dist nbr = some cn ∧ cn ≤ cv + w) := by
  intro l
  induction l with
  | nil =>
    intro st st2 hg ht _ _ hrun
    simp only [relaxList] at hrun
    injection hrun with hrun
    subst hrun
    refine ⟨hg, ht, rfl, rfl, by simp, fun n => optLe_refl _, fun n _ => rfl,
      fun n hs => hs, ?_⟩
    intro nbr w hmem
    cases hmem
  | cons x rest ih =>
    obtain ⟨nbr, w⟩ := x
    intro st st2 hg ht hcur hsub hrun
    simp only [relaxList] at hrun
    by_cases hvis : nbr ∈ st.visitedL
    · rw [if_pos hvis] at hrun
      obtain ⟨g2, t2, hv2, hs2, hpq2, hdle, hdvis, hprevS, hrel⟩ :=
        ih st st2 hg ht hcur (fun y hy => hsub y (List.mem_cons_of_mem _ hy)) hrun
      refine ⟨g2, t2, hv2, hs2, ?_, hdle, hdvis, hprevS, ?_⟩
      · simp only [List.length_cons]
        omega
      · intro nbr2 w2 hmem
        rcases List.mem_cons.mp hmem with heq | hmem2
        · have hn2 : nbr2 = nbr := congrArg Prod.fst heq
          subst hn2
          rw [hv2]
          exact Or.inl hvis
        · exact hrel nbr2 w2 hmem2
    · rw [if_neg hvis] at hrun
      obtain ⟨cd, hcd⟩ := hg.visDist cur hcur
      rw [hcd] at hrun
      simp only [Option.map_some'] at hrun
      by_cases hopt : optLt (some (cd + w)) (st.dist nbr) = true
      · rw [if_pos hopt] at hrun
        have hedge : (nbr, w) ∈ adj cur := hsub (nbr, w) (List.mem_cons_self _ _)
        have hlt : ∀ c, st.dist nbr = some c → cd + w < c := fun c hc =>
          optLt_some hopt c hc
        have hcurne : cur ≠ nbr := fun hc => hvis (hc ▸ hcur)
        cases hh : h nbr with
        | error k =>
          rw [hh] at hrun
          cases hrun
        | ok hv =>
          rw [hh] at hrun
          have hg1 : GInv nodes adj start endNode h (relaxUpd st cur nbr (cd + w) hv) :=
            relaxUpd_GInv hadjT hg hcur hvis hedge hcd rfl hlt hh
          have ht1 : TraceInv nodes adj start (relaxUpd st cur nbr (cd + w) hv) :=
            relaxUpd_TraceInv ht hvis hlt
          have hcur1 : cur ∈ (relaxUpd st cur nbr (cd + w) hv).visitedL := by
            rw [relaxUpd_visitedL]; exact hcur
          obtain ⟨g2, t2, hv2, hs2, hpq2, hdle, hdvis, hprevS, hrel⟩ :=
            ih (relaxUpd st cur nbr (cd + w) hv) st2 hg1 ht1 hcur1
              (fun y hy => hsub y (List.mem_cons_of_mem _ hy)) hrun
          refine ⟨g2, t2, ?_, ?_, ?_, ?_, ?_, ?_, ?_⟩
          · rw [hv2, relaxUpd_visitedL]
          · rw [hs2, relaxUpd_steps]
          · have hl1 : (relaxUpd st cur nbr (cd + w) hv).pq.length = st.pq.length + 1 := by
              rw [relaxUpd_pq]
              simp
            rw [hl1] at hpq2
            simp only [List.length_cons]
            omega
          · intro n
            refine optLe_trans (hdle n) ?_
            by_cases hnn : n = nbr
            · subst hnn
              intro c hc
              exact ⟨cd + w, by rw [relaxUpd_dist, if_pos rfl], le_of_lt (hlt c hc)⟩
            · intro c hc
              exact ⟨c, by rw [relaxUpd_dist, if_neg hnn]; exact hc, le_refl c⟩
          · intro n hn
            have hnn : n ≠ nbr := fun hc => hvis (hc ▸ hn)
            rw [hdvis n (by rw [relaxUpd_visitedL]; exact hn), relaxUpd_dist, if_neg hnn]
          · intro n hsm
            apply hprevS
            rw [relaxUpd_prev, lookupKV_updPrev]
            by_cases hnn : n = nbr
            · rw [if_pos hnn]; rfl
            · rw [if_neg hnn]; exact hsm
          · intro nbr2 w2 hmem
            rcases List.mem_cons.mp hmem with heq | hmem2
            · have hn2 : nbr2 = nbr := congrArg Prod.fst heq
              have hw2 : w2 = w := congrArg Prod.snd heq
              subst hn2; subst hw2
              right
              have hc1 : st2.dist cur = some cd := by
                rw [hdvis cur hcur1, relaxUpd_dist, if_neg hcurne]
                exact hcd
              obtain ⟨cn, hcn, hlecn⟩ :=
                hdle nbr2 (cd + w2) (by rw [relaxUpd_dist, if_pos rfl])
              exact ⟨cd, cn, hc1, hcn, by linarith⟩
            · exact hrel nbr2 w2 hmem2
      · rw [if_neg hopt] at hrun
        obtain ⟨g2, t2, hv2, hs2, hpq2, hdle, hdvis, hprevS, hrel⟩ :=
          ih st st2 hg ht hcur (fun y hy => hsub y (List.mem_cons_of_mem _ hy)) hrun
        refine ⟨g2, t2, hv2, hs2, ?_, hdle, hdvis, hprevS, ?_⟩
        · simp only [List.length_cons]
          omega
        · intro nbr2 w2 hmem
          rcases List.mem_cons.mp hmem with heq | hmem2
          · have hn2 : nbr2 = nbr := congrArg Prod.fst heq
            have hw2 : w2 = w := congrArg Prod.snd heq
            subst hn2; subst hw2
            right
            cases hnd : st.dist nbr2 with
            | none =>
              rw [hnd] at hopt
              exact absurd rfl hopt
            | some c =>
              have hcle : c ≤ cd + w2 := by
                rw [hnd] at hopt
                have : ¬ (cd + w2 < c) := fun hc => hopt (by simp [optLt, hc])
                linarith [not_lt.mp this]
              obtain ⟨cn, hcn, hlecn⟩ := hdle nbr2 c hnd
              exact ⟨cd, cn, hdvis cur hcur ▸ hcd, hcn, by linarith⟩
          · exact hrel nbr2 w2 hmem2

theorem relaxList_ok {h : String → Except String ℚ} (cur : String) :
    ∀ (l : List (String × ℚ)) (st : SearchState),
      (∀ x ∈ l, ∃ q, h x.1 = Except.ok q) →
      ∃ st2, relaxList h cur l st = Except.ok st2 := by
  intro l
  induction l with
  | nil => intro st _; exact ⟨st, rfl⟩
  | cons x rest ih =>
    obtain ⟨nbr, w⟩ := x
    intro st htot
    have htot2 : ∀ y ∈ rest, ∃ q, h y.1 = Except.ok q :=
      fun y hy => htot y (List.mem_cons_of_mem _ hy)
    simp only [relaxList]
    by_cases hvis : nbr ∈ st.visitedL
    · rw [if_pos hvis]
      exact ih st htot2
    · rw [if_neg hvis]
      cases hdc : st.dist cur with
      | none =>
        simp only [hdc, Option.map_none']
        rw [if_neg (by simp [optLt])]
        exact ih st htot2
      | some cd =>
        simp only [hdc, Option.map_some']
        by_cases hopt : optLt (some (cd + w)) (st.dist nbr) = true
        · rw [if_pos hopt]
          obtain ⟨q, hq⟩ := htot (nbr, w) (List.mem_cons_self _ _)
          rw [hq]
          exact ih (relaxUpd st cur nbr (cd + w) q) htot2
        · rw [if_neg hopt]
          exact ih st htot2


/-! ### Preservation of the invariants by a settlement -/

theorem settleState_pq (nodes : List String) (st : SearchState) (e : Entry)
    (rest : List Entry) : (settleState nodes st e rest).pq = rest := rfl

theorem settleState_dist (nodes : List String) (st : SearchState) (e : Entry)
    (rest : List Entry) : (settleState nodes st e rest).dist = st.dist := rfl

theorem settleState_prev (nodes : List String) (st : SearchState) (e : Entry)
    (rest : List Entry) : (settleState nodes st e rest).prev = st.prev := rfl

theorem settleState_visitedL (nodes : List String) (st : SearchState) (e : Entry)
    (rest : List Entry) :
    (settleState nodes st e rest).visitedL = st.visitedL ++ [e.node] := rfl

theorem settleState_steps (nodes : List String) (st : SearchState) (e : Entry)
    (rest : List Entry) :
    (settleState nodes st e rest).steps = st.steps ++
      [⟨e.node, st.visitedL ++ [e.node], renderDistances nodes st.dist, st.prev⟩] := rfl

theorem getElem?_some_lt {α : Type} {l : List α} {k : ℕ} {s : α} (h : l[k]? = some s) :
    k < l.length := by
  by_contra hc
  rw [List.getElem?_eq_none (Nat.le_of_not_lt hc)] at h
  cases h

theorem getElem?_concat_cases {α : Type} {l : List α} {a : α} {k : ℕ} {s : α}
    (h : (l ++ [a])[k]? = some s) : l[k]? = some s ∨ (k = l.length ∧ s = a) := by
  rcases Nat.lt_trichotomy k l.length with hlt | heq | hgt
  · left
    rw [List.getElem?_append_left hlt] at h
    exact h
  · right
    refine ⟨heq, ?_⟩
    subst heq
    rw [List.getElem?_concat_length] at h
    injection h with h
    exact h.symm
  · exfalso
    rw [List.getElem?_eq_none (by simp; omega)] at h
    cases h

theorem getElem?_concat_left {α : Type} {l : List α} {a : α} {k : ℕ} {s : α}
    (h : l[k]? = some s) : (l ++ [a])[k]? = some s := by
  rw [List.getElem?_append_left (getElem?_some_lt h)]
  exact h

theorem getLast?_of_getElem?_last {α : Type} {l : List α} {k : ℕ} {s : α}
    (h : l[k]? = some s) (hk : k + 1 = l.length) : l.getLast? = some s := by
  rw [List.getLast?_eq_getElem?]
  have : l.length - 1 = k := by omega
  rw [this]
  exact h

theorem settle_GInv {nodes : List String} {adj : String → List (String × ℚ)}
    {start endNode : String} {h : String → Except String ℚ}
    {st : SearchState} {e : Entry} {rest : List Entry}
    (hg : GInv nodes adj start endNode h st)
    (hpop : popMin st.pq = some (e, rest))
    (hnv : e.node ∉ st.visitedL) :
    GInv nodes adj start endNode h (settleState nodes st e rest) := by
  obtain ⟨hmem, hrest, _⟩ := popMin_spec hpop
  refine
    { visNodup := ?_
      visSub := ?_
      stepsCur := ?_
      visStart := ?_
      initState := ?_
      distStart := hg.distStart
      prevStart := hg.prevStart
      pqNode := ?_
      pqDist := ?_
      hEntry := ?_
      distNone := hg.distNone
      prevConsist := ?_
      prevIdx := ?_
      visDist := ?_
      unsettledEntry := ?_
      distWalk := hg.distWalk }
  · rw [settleState_visitedL]
    refine List.Nodup.append hg.visNodup (List.nodup_singleton _) ?_
    intro a ha hb
    simp only [List.mem_singleton] at hb
    exact hnv (hb ▸ ha)
  · intro n hn
    rw [settleState_visitedL] at hn
    rcases List.mem_append.mp hn with hn | hn
    · exact hg.visSub n hn
    · simp only [List.mem_singleton] at hn
      exact hn ▸ hg.pqNode e hmem
  · rw [settleState_steps, settleState_visitedL, List.map_append, hg.stepsCur]
    rfl
  · intro _
    rw [settleState_visitedL]
    by_cases hv : st.visitedL = []
    · obtain ⟨_, hents, _, _, _⟩ := hg.initState hv
      rw [hv, (hents e hmem).1]
      simp
    · exact List.mem_append_left _ (hg.visStart hv)
  · intro hc
    rw [settleState_visitedL] at hc
    exact absurd hc (by simp)
  · intro e2 he2
    rw [settleState_pq, hrest] at he2
    exact hg.pqNode e2 (List.mem_of_mem_erase he2)
  · intro e2 he2
    rw [settleState_pq, hrest] at he2
    exact hg.pqDist e2 (List.mem_of_mem_erase he2)
  · intro e2 he2
    rw [settleState_pq, hrest] at he2
    exact hg.hEntry e2 (List.mem_of_mem_erase he2)
  · intro n p hp
    rw [settleState_prev] at hp
    obtain ⟨hpv, w2, cp, he2, hdp, hdn⟩ := hg.prevConsist n p hp
    exact ⟨by rw [settleState_visitedL]; exact List.mem_append_left _ hpv,
      w2, cp, he2, hdp, hdn⟩
  · intro n p hp hn
    rw [settleState_prev] at hp
    rw [settleState_visitedL] at hn ⊢
    have hpv : p ∈ st.visitedL := (hg.prevConsist n p hp).1
    rcases List.mem_append.mp hn with hn | hn
    · rw [posOf_append_left _ hpv, posOf_append_left _ hn]
      exact hg.prevIdx n p hp hn
    · simp only [List.mem_singleton] at hn
      subst hn
      rw [posOf_append_left _ hpv, posOf_append_self hnv]
      exact posOf_lt_length hpv
  · intro v hv
    rw [settleState_visitedL] at hv
    rcases List.mem_append.mp hv with hv | hv
    · exact hg.visDist v hv
    · simp only [List.mem_singleton] at hv
      subst hv
      obtain ⟨c, hc, _⟩ := hg.pqDist e hmem
      exact ⟨c, hc⟩
  · intro u c hc hu
    rw [settleState_visitedL] at hu
    have hu1 : u ∉ st.visitedL := fun hx => hu (List.mem_append_left _ hx)
    have hu2 : u ≠ e.node := fun hx => hu (by rw [hx]; exact List.mem_append_right _ (by simp))
    obtain ⟨e2, he2, hn2, hp2⟩ := hg.unsettledEntry u c hc hu1
    refine ⟨e2, ?_, hn2, hp2⟩
    rw [settleState_pq, hrest]
    have hne : e2 ≠ e := fun hcq => hu2 (by rw [← hn2, hcq])
    exact (List.mem_erase_of_ne hne).mpr he2

theorem settle_TraceInv {nodes : List String} {adj : String → List (String × ℚ)}
    {start endNode : String} {h : String → Except String ℚ}
    {st : SearchState} {e : Entry} {rest : List Entry}
    (hg : GInv nodes adj start endNode h st)
    (ht : TraceInv nodes adj start st)
    (hpop : popMin st.pq = some (e, rest))
    (_hnv : e.node ∉ st.visitedL) :
    TraceInv nodes adj start (settleState nodes st e rest) := by
  obtain ⟨hmem, hrest, _⟩ := popMin_spec hpop
  refine
    { snapSentinel := ?_
      headVisited := ?_
      chainVisited := ?_
      pairMono := ?_
      lastLink := ?_ }
  · intro s hs n hn
    rw [settleState_steps] at hs
    rcases List.mem_append.mp hs with hs | hs
    · exact ht.snapSentinel s hs n hn
    · simp only [List.mem_singleton] at hs
      subst hs
      refine ⟨renderVal (st.dist n), lookupKV_render st.dist hn, ?_, ?_⟩
      · intro hreach
        cases hd : st.dist n with
        | none =>
          obtain ⟨hns, hlkp⟩ := (hg.distNone n).mp hd
          rcases hreach with hs2 | hs2
          · exact absurd hs2 hns
          · rw [hlkp] at hs2
            cases hs2
        | some c =>
          exact hg.distWalk n c hd
      · rintro ⟨hns, hlkp⟩
        have hd : st.dist n = none := (hg.distNone n).mpr ⟨hns, hlkp⟩
        rw [hd]
        rfl
  · intro s hs
    rw [settleState_steps] at hs
    cases hsteps : st.steps with
    | nil =>
      rw [hsteps] at hs
      simp only [List.nil_append, List.head?_cons, Option.some.injEq] at hs
      subst hs
      have hv : st.visitedL = [] := by
        have h2 := hg.stepsCur
        rw [hsteps] at h2
        simpa using h2.symm
      show st.visitedL ++ [e.node] = [e.node]
      rw [hv]
      rfl
    | cons s0 t =>
      rw [hsteps] at hs
      simp only [List.cons_append, List.head?_cons, Option.some.injEq] at hs
      subst hs
      apply ht.headVisited
      rw [hsteps]
      rfl
  · intro k s s2 hk hk2
    rw [settleState_steps] at hk hk2
    rcases getElem?_concat_cases hk with hk | ⟨hkl, hks⟩
    · rcases getElem?_concat_cases hk2 with hk2 | ⟨hk2l, hk2s⟩
      · exact ht.chainVisited k s s2 hk hk2
      · subst hk2s
        show (st.visitedL ++ [e.node]) = s.visited ++ [e.node]
        obtain ⟨hsv, _⟩ := ht.lastLink s (getLast?_of_getElem?_last hk hk2l)
        rw [hsv]
    · exfalso
      have := getElem?_some_lt hk2
      simp only [List.length_append, List.length_singleton] at this
      omega
  · intro k s s2 hk hk2 n hn
    rw [settleState_steps] at hk hk2
    rcases getElem?_concat_cases hk with hk | ⟨hkl, hks⟩
    · rcases getElem?_concat_cases hk2 with hk2 | ⟨hk2l, hk2s⟩
      · exact ht.pairMono k s s2 hk hk2 n hn
      · subst hk2s
        obtain ⟨hsv, hlink⟩ := ht.lastLink s (getLast?_of_getElem?_last hk hk2l)
        obtain ⟨o, hlkp, hle, hiff, hsettled⟩ := hlink n hn
        refine ⟨renderVal o, renderVal (st.dist n), hlkp,
          lookupKV_render st.dist hn, ?_, ?_⟩
        · cases ho : o with
          | some c =>
            cases hdn : st.dist n with
            | none =>
              obtain ⟨c2, hc2, _⟩ := hle c ho
              rw [hdn] at hc2
              cases hc2
            | some c2 =>
              obtain ⟨c3, hc3, hle3⟩ := hle c ho
              rw [hdn] at hc3
              injection hc3 with hc3
              subst hc3
              left
              exact hle3
          | none =>
            right
            obtain ⟨hns, hlkp2⟩ := hiff.mp ho
            exact ⟨rfl, hns, hlkp2⟩
        · intro hvk
          obtain ⟨ho, _⟩ := hsettled hvk
          rw [ho]
    · exfalso
      have := getElem?_some_lt hk2
      simp only [List.length_append, List.length_singleton] at this
      omega
  · intro s hs
    rw [settleState_steps, List.getLast?_concat] at hs
    injection hs with hs
    subst hs
    refine ⟨rfl, fun n hn => ?_⟩
    refine ⟨st.dist n, lookupKV_render st.dist hn, optLe_refl _, hg.distNone n, ?_⟩
    intro hmem2
    refine ⟨rfl, ?_⟩
    rcases List.mem_append.mp hmem2 with hm | hm
    · obtain ⟨c, hc⟩ := hg.visDist n hm
      rw [hc]
      intro hcon
      cases hcon
    · simp only [List.mem_singleton] at hm
      subst hm
      obtain ⟨c, hc, _⟩ := hg.pqDist e hmem
      rw [hc]
      intro hcon
      cases hcon

theorem Processed_settle_break {nodes : List String} {adj : String → List (String × ℚ)}
    {endNode : String} {st : SearchState} {e : Entry} {rest : List Entry}
    (hproc : Processed adj endNode st) (hend : e.node = endNode) :
    Processed adj endNode (settleState nodes st e rest) := by
  intro v hv
  rw [settleState_visitedL] at hv
  rcases List.mem_append.mp hv with hm | hm
  · rcases hproc v hm with he | hcond
    · exact Or.inl he
    · right
      intro nbr w hadj
      rcases hcond nbr w hadj with hn | hc
      · exact Or.inl (by rw [settleState_visitedL]; exact List.mem_append_left _ hn)
      · exact Or.inr hc
  · simp only [List.mem_singleton] at hm
    subst hm
    exact Or.inl hend

theorem Processed_settle_relax {adj : String → List (String × ℚ)}
    {endNode : String} {st st2 : SearchState} {cur : String}
    (hproc : Processed adj endNode st)
    (hv2 : st2.visitedL = st.visitedL ++ [cur])
    (hdvis : ∀ n, n ∈ st.visitedL ++ [cur] → st2.dist n = st.dist n)
    (hdle : ∀ n, optLe (st2.dist n) (st.dist n))
    (hrel : ∀ nbr w, (nbr, w) ∈ adj cur → nbr ∈ st2.visitedL ∨
      ∃ cv cn, st2.dist cur = some cv ∧ st2.dist nbr = some cn ∧ cn ≤ cv + w) :
    Processed adj endNode st2 := by
  intro v hv
  rw [hv2] at hv
  rcases List.mem_append.mp hv with hm | hm
  · rcases hproc v hm with he | hcond
    · exact Or.inl he
    · right
      intro nbr w hadj
      rcases hcond nbr w hadj with hn | ⟨cv, cn, hcv, hcn, hle⟩
      · exact Or.inl (by rw [hv2]; exact List.mem_append_left _ hn)
      · right
        have hdv : st2.dist v = some cv := by
          rw [hdvis v (List.mem_append_left _ hm)]
          exact hcv
        obtain ⟨cn2, hcn2, hlecn2⟩ := hdle nbr cn hcn
        exact ⟨cv, cn2, hdv, hcn2, by linarith⟩
  · simp only [List.mem_singleton] at hm
    subst hm
    right
    intro nbr w hadj
    rcases hrel nbr w hadj with hn | hcond
    · exact Or.inl hn
    · exact Or.inr hcond

theorem skip_GInv {nodes : List String} {adj : String → List (String × ℚ)}
    {start endNode : String} {h : String → Except String ℚ}
    {st : SearchState} {e : Entry} {rest : List Entry}
    (hg : GInv nodes adj start endNode h st)
    (hpop : popMin st.pq = some (e, rest))
    (hvis : e.node ∈ st.visitedL) :
    GInv nodes adj start endNode h { st with pq := rest } := by
  obtain ⟨hmem, hrest, _⟩ := popMin_spec hpop
  refine
    { visNodup := hg.visNodup
      visSub := hg.visSub
      stepsCur := hg.stepsCur
      visStart := hg.visStart
      initState := fun hc => absurd hvis (by
        have hc2 : st.visitedL = [] := hc
        rw [hc2]
        exact List.not_mem_nil e.node)
      distStart := hg.distStart
      prevStart := hg.prevStart
      pqNode := ?_
      pqDist := ?_
      hEntry := ?_
      distNone := hg.distNone
      prevConsist := hg.prevConsist
      prevIdx := hg.prevIdx
      visDist := hg.visDist
      unsettledEntry := ?_
      distWalk := hg.distWalk }
  · intro e2 he2
    rw [hrest] at he2
    exact hg.pqNode e2 (List.mem_of_mem_erase he2)
  · intro e2 he2
    rw [hrest] at he2
    exact hg.pqDist e2 (List.mem_of_mem_erase he2)
  · intro e2 he2
    rw [hrest] at he2
    exact hg.hEntry e2 (List.mem_of_mem_erase he2)
  · intro u c hc hu
    obtain ⟨e2, he2, hn2, hp2⟩ := hg.unsettledEntry u c hc hu
    refine ⟨e2, ?_, hn2, hp2⟩
    show e2 ∈ rest
    rw [hrest]
    have hne : e2 ≠ e := fun hcq => hu (by rw [← hn2, hcq]; exact hvis)
    exact (List.mem_erase_of_ne hne).mpr he2


/-! ### The master loop lemma -/

theorem searchLoop_done_inv {nodes : List String} {adj : String → List (String × ℚ)}
    {start endNode : String} {h : String → Except String ℚ}
    (hadjT : ∀ u v w, (v, w) ∈ adj u → v ∈ nodes) :
    ∀ (fuel : ℕ) (st stf : SearchState),
      GInv nodes adj start endNode h st →
      TraceInv nodes adj start st →
      Processed adj endNode st →
      endNode ∉ st.visitedL →
      searchLoop nodes adj endNode h fuel st = LoopRes.done stf →
      GInv nodes adj start endNode h stf ∧ TraceInv nodes adj start stf ∧
      Processed adj endNode stf ∧
      (stf.pq = [] ∧ endNode ∉ stf.visitedL ∨ endNode ∈ stf.visitedL) := by
  intro fuel
  induction fuel with
  | zero =>
    intro st stf _ _ _ _ hrun
    cases hrun
  | succ fuel ih =>
    intro st stf hg ht hproc hend hrun
    unfold searchLoop at hrun
    cases hpop : popMin st.pq with
    | none =>
      rw [hpop] at hrun
      injection hrun with hrun
      subst hrun
      exact ⟨hg, ht, hproc, Or.inl ⟨(popMin_none_iff _).mp hpop, hend⟩⟩
    | some pr =>
      obtain ⟨e, rest⟩ := pr
      rw [hpop] at hrun
      simp only [] at hrun
      by_cases hvis : e.node ∈ st.visitedL
      · rw [if_pos hvis] at hrun
        refine ih _ stf (skip_GInv hg hpop hvis) ?_ hproc hend hrun
        exact
          { snapSentinel := ht.snapSentinel
            headVisited := ht.headVisited
            chainVisited := ht.chainVisited
            pairMono := ht.pairMono
            lastLink := ht.lastLink }
      · rw [if_neg hvis] at hrun
        by_cases hbreak : e.node = endNode
        · rw [if_pos hbreak] at hrun
          injection hrun with hrun
          subst hrun
          refine ⟨settle_GInv hg hpop hvis, settle_TraceInv hg ht hpop hvis,
            Processed_settle_break hproc hbreak, Or.inr ?_⟩
          rw [settleState_visitedL, hbreak]
          exact List.mem_append_right _ (by simp)
        · rw [if_neg hbreak] at hrun
          cases hrel : relaxList h e.node (adj e.node) (settleState nodes st e rest) with
          | error k =>
            rw [hrel] at hrun
            cases hrun
          | ok st2 =>
            rw [hrel] at hrun
            have hg1 := settle_GInv hg hpop hvis
            have ht1 := settle_TraceInv hg ht hpop hvis
            have hcur1 : e.node ∈ (settleState nodes st e rest).visitedL := by
              rw [settleState_visitedL]
              exact List.mem_append_right _ (by simp)
            obtain ⟨g2, t2, hv2, hs2, hpq2, hdle, hdvis, hprevS, hrelc⟩ :=
              relaxList_spec hadjT e.node (adj e.node) _ st2 hg1 ht1 hcur1
                (fun x hx => hx) hrel
            have hproc2 : Processed adj endNode st2 := by
              refine @Processed_settle_relax adj endNode _ st2 e.node hproc ?_ ?_ ?_ ?_
              · rw [hv2, settleState_visitedL]
              · intro n hn
                exact hdvis n hn
              · intro n
                exact hdle n
              · intro nbr w hadj
                exact hrelc nbr w hadj
            have hend2 : endNode ∉ st2.visitedL := by
              rw [hv2, settleState_visitedL]
              intro hc
              rcases List.mem_append.mp hc with hc | hc
              · exact hend hc
              · simp only [List.mem_singleton] at hc
                exact hbreak hc.symm
            exact ih st2 stf g2 t2 hproc2 hend2 hrun


/-! ### The chosen fuel always suffices -/

theorem filter_sum_mono (l : List String) (f : String → ℕ) (p q : String → Bool)
    (himp : ∀ n, p n = true → q n = true) :
    ((l.filter p).map f).sum ≤ ((l.filter q).map f).sum := by
  induction l with
  | nil => exact le_refl 0
  | cons b t ih =>
    by_cases hp : p b = true
    · rw [List.filter_cons_of_pos hp, List.filter_cons_of_pos (himp b hp)]
      simp only [List.map_cons, List.sum_cons]
      omega
    · rw [List.filter_cons_of_neg (by simpa using hp)]
      by_cases hq : q b = true
      · rw [List.filter_cons_of_pos hq]
        simp only [List.map_cons, List.sum_cons]
        omega
      · rw [List.filter_cons_of_neg (by simpa using hq)]
        exact ih

theorem filter_sum_remove {l : List String} (f : String → ℕ) {visited : List String}
    {a : String} (ha : a ∈ l) (hav : a ∉ visited) :
    ((l.filter (fun n => decide (n ∉ visited ++ [a]))).map f).sum + f a ≤
      ((l.filter (fun n => decide (n ∉ visited))).map f).sum := by
  induction l with
  | nil => cases ha
  | cons b t ih =>
    by_cases hb : b = a
    · subst hb
      rw [List.filter_cons_of_neg (by simp), List.filter_cons_of_pos (by simpa using hav)]
      simp only [List.map_cons, List.sum_cons]
      have hmono := filter_sum_mono t f (fun n => decide (n ∉ visited ++ [b]))
        (fun n => decide (n ∉ visited)) (fun n hpn => by
          simp only [decide_eq_true_eq] at hpn ⊢
          intro hc
          exact hpn (List.mem_append_left _ hc))
      omega
    · by_cases hbv : b ∈ visited
      · have hat : a ∈ t := by
          rcases List.mem_cons.mp ha with hc | hc
          · exact absurd hc.symm hb
          · exact hc
        rw [List.filter_cons_of_neg (by simp [hbv]), List.filter_cons_of_neg (by simp [hbv])]
        exact ih hat
      · have hat : a ∈ t := by
          rcases List.mem_cons.mp ha with hc | hc
          · exact absurd hc.symm hb
          · exact hc
        have h1 : b ∉ visited ++ [a] := by
          intro hc
          rcases List.mem_append.mp hc with hc | hc
          · exact hbv hc
          · simp only [List.mem_singleton] at hc
            exact hb hc
        rw [List.filter_cons_of_pos (by simpa using h1),
          List.filter_cons_of_pos (by simpa using hbv)]
        simp only [List.map_cons, List.sum_cons]
        have := ih hat
        omega

theorem searchLoop_completes {nodes : List String} {adj : String → List (String × ℚ)}
    {start endNode : String} {h : String → Except String ℚ}
    (hadjT : ∀ u v w, (v, w) ∈ adj u → v ∈ nodes)
    (htotal : ∀ n ∈ nodes, ∃ q, h n = Except.ok q) :
    ∀ (fuel : ℕ) (st : SearchState),
      GInv nodes adj start endNode h st →
      TraceInv nodes adj start st →
      phiPot nodes adj st < fuel →
      ∃ stf, searchLoop nodes adj endNode h fuel st = LoopRes.done stf := by
  intro fuel
  induction fuel with
  | zero =>
    intro st _ _ hphi
    omega
  | succ fuel ih =>
    intro st hg ht hphi
    unfold searchLoop
    cases hpop : popMin st.pq with
    | none => exact ⟨st, rfl⟩
    | some pr =>
      obtain ⟨e, rest⟩ := pr
      obtain ⟨hmem, hrest, _⟩ := popMin_spec hpop
      have hpqlen : st.pq.length = rest.length + 1 := by
        rw [hrest, List.length_erase_of_mem hmem]
        have := List.length_pos_of_mem hmem
        omega
      simp only []
      by_cases hvis : e.node ∈ st.visitedL
      · rw [if_pos hvis]
        refine ih _ (skip_GInv hg hpop hvis) ?_ ?_
        · exact
            { snapSentinel := ht.snapSentinel
              headVisited := ht.headVisited
              chainVisited := ht.chainVisited
              pairMono := ht.pairMono
              lastLink := ht.lastLink }
        · have heq : phiPot nodes adj { st with pq := rest } =
              rest.length + ((nodes.filter (fun n => decide (n ∉ st.visitedL))).map
                (fun n => (adj n).length)).sum := rfl
          have hphi1 : phiPot nodes adj st =
              st.pq.length + ((nodes.filter (fun n => decide (n ∉ st.visitedL))).map
                (fun n => (adj n).length)).sum := rfl
          omega
      · rw [if_neg hvis]
        by_cases hbreak : e.node = endNode
        · rw [if_pos hbreak]
          exact ⟨_, rfl⟩
        · rw [if_neg hbreak]
          have htot2 : ∀ x ∈ adj e.node, ∃ q, h x.1 = Except.ok q := by
            intro x hx
            obtain ⟨v, w⟩ := x
            exact htotal v (hadjT e.node v w hx)
          obtain ⟨st2, hrel⟩ :=
            relaxList_ok e.node (adj e.node) (settleState nodes st e rest) htot2
          rw [hrel]
          have hg1 := settle_GInv hg hpop hvis
          have ht1 := settle_TraceInv hg ht hpop hvis
          have hcur1 : e.node ∈ (settleState nodes st e rest).visitedL := by
            rw [settleState_visitedL]
            exact List.mem_append_right _ (by simp)
          obtain ⟨g2, t2, hv2, hs2, hpq2, _, _, _, _⟩ :=
            relaxList_spec hadjT e.node (adj e.node) _ st2 hg1 ht1 hcur1
              (fun x hx => hx) hrel
          refine ih st2 g2 t2 ?_
          have hen : e.node ∈ nodes := hg.pqNode e hmem
          have hrm := filter_sum_remove (fun n => (adj n).length) hen hvis
          simp only [] at hrm
          have hΦ2 : phiPot nodes adj st2 =
              st2.pq.length + ((nodes.filter
                (fun n => decide (n ∉ st.visitedL ++ [e.node]))).map
                  (fun n => (adj n).length)).sum := by
            unfold phiPot
            rw [hv2, settleState_visitedL]
          have hΦ1 : phiPot nodes adj st =
              st.pq.length + ((nodes.filter (fun n => decide (n ∉ st.visitedL))).map
                (fun n => (adj n).length)).sum := rfl
          have hpq1 : (settleState nodes st e rest).pq.length = rest.length := by
            rw [settleState_pq]
          rw [hpq1] at hpq2
          omega


/-! ### Initial states and whole-run master lemmas -/

theorem GInv_init {nodes : List String} {adj : String → List (String × ℚ)}
    {start endNode : String} {h : String → Except String ℚ}
    (hstart : start ∈ nodes) {h0 : ℚ} (hh0 : h start = Except.ok h0) :
    GInv nodes adj start endNode h
      ⟨[⟨h0, 0, start⟩], fun n => if n = start then some 0 else none, [], [], []⟩ := by
  refine
    { visNodup := List.nodup_nil
      visSub := fun n hn => absurd hn (List.not_mem_nil n)
      stepsCur := rfl
      visStart := fun hc => absurd rfl hc
      initState := fun _ => ⟨by simp, ?_, fun n => rfl, rfl, rfl⟩
      distStart := by simp
      prevStart := rfl
      pqNode := ?_
      pqDist := ?_
      hEntry := ?_
      distNone := ?_
      prevConsist := fun n p hp => by cases hp
      prevIdx := fun n p hp => by cases hp
      visDist := fun v hv => absurd hv (List.not_mem_nil v)
      unsettledEntry := ?_
      distWalk := ?_ }
  · intro e he
    simp only [List.mem_singleton] at he
    subst he
    exact ⟨rfl, rfl⟩
  · intro e he
    simp only [List.mem_singleton] at he
    subst he
    exact hstart
  · intro e he
    simp only [List.mem_singleton] at he
    subst he
    exact ⟨0, by simp, le_refl 0⟩
  · intro e he
    simp only [List.mem_singleton] at he
    subst he
    show h start = Except.ok (h0 - 0)
    rw [sub_zero]
    exact hh0
  · intro n
    by_cases hn : n = start
    · subst hn
      simp [lookupKV]
    · simp [hn, lookupKV]
  · intro u c hc hu
    by_cases hn : u = start
    · subst hn
      simp only [if_pos rfl] at hc
      injection hc with hc
      exact ⟨⟨h0, 0, u⟩, by simp, rfl, hc⟩
    · simp only [if_neg hn] at hc
      cases hc
  · intro n c hc
    by_cases hn : n = start
    · subst hn
      simp only [if_pos rfl] at hc
      injection hc with hc
      subst hc
      exact IsWalk.nil _
    · simp only [if_neg hn] at hc
      cases hc

theorem TraceInv_init {nodes : List String} {adj : String → List (String × ℚ)}
    {start : String} (pq0 : List Entry) (dist0 : String → Option ℚ) :
    TraceInv nodes adj start ⟨pq0, dist0, [], [], []⟩ :=
  { snapSentinel := fun s hs => absurd hs (List.not_mem_nil s)
    headVisited := fun s hs => by cases hs
    chainVisited := fun k s s2 hk => by cases hk
    pairMono := fun k s s2 hk => by cases hk
    lastLink := fun s hs => by cases hs }

theorem Processed_init {adj : String → List (String × ℚ)} {endNode : String}
    (pq0 : List Entry) (dist0 : String → Option ℚ) :
    Processed adj endNode ⟨pq0, dist0, [], [], []⟩ :=
  fun v hv => absurd hv (List.not_mem_nil v)

theorem phiPot_init {nodes : List String} {adj : String → List (String × ℚ)}
    (pq0 : List Entry) (dist0 : String → Option ℚ) :
    phiPot nodes adj ⟨pq0, dist0, [], [], []⟩ =
      pq0.length + (nodes.map (fun n => (adj n).length)).sum := by
  unfold phiPot
  congr 1
  congr 1
  congr 1
  simp

theorem dijkstra_master (g : Graph) (start endNode : String)
    (hstart : start ∈ g.nodes) (hnd : g.nodes.Nodup)
    (hep : ∀ e ∈ g.edges, e.from_ ∈ g.nodes ∧ e.«to» ∈ g.nodes) :
    ∃ stf,
      searchLoop g.nodes g.adj endNode (fun _ => Except.ok 0) (searchFuel g)
        ⟨[⟨0, 0, start⟩], fun n => if n = start then some 0 else none, [], [], []⟩ =
        LoopRes.done stf ∧
      g.dijkstra start endNode =
        (reconstructPath stf.prev start endNode (g.nodes.length + 1), stf.steps) ∧
      GInv g.nodes g.adj start endNode (fun _ => Except.ok 0) stf ∧
      TraceInv g.nodes g.adj start stf ∧
      Processed g.adj endNode stf ∧
      (stf.pq = [] ∧ endNode ∉ stf.visitedL ∨ endNode ∈ stf.visitedL) := by
  have hadjT : ∀ u v w, (v, w) ∈ g.adj u → v ∈ g.nodes :=
    fun u v w hm => adj_target_mem hep hm
  have hg0 := @GInv_init g.nodes g.adj start endNode (fun _ => Except.ok 0) hstart 0 rfl
  have ht0 := @TraceInv_init g.nodes g.adj start
    [⟨0, 0, start⟩] (fun n => if n = start then some 0 else none)
  have hphi : phiPot g.nodes g.adj
      ⟨[⟨0, 0, start⟩], fun n => if n = start then some 0 else none, [], [], []⟩ <
      searchFuel g := by
    rw [phiPot_init, sum_adj_lengths g hnd hep]
    unfold searchFuel
    simp only [List.length_singleton]
    omega
  obtain ⟨stf, hdone⟩ := searchLoop_completes hadjT
    (fun n _ => ⟨0, rfl⟩) (searchFuel g) _ hg0 ht0 hphi
  obtain ⟨gf, tf, pf, hfin⟩ := searchLoop_done_inv hadjT (searchFuel g) _ stf hg0 ht0
    (Processed_init _ _) (List.not_mem_nil endNode) hdone
  refine ⟨stf, hdone, ?_, gf, tf, pf, hfin⟩
  simp only [Graph.dijkstra]
  rw [hdone]

theorem astar_master (g : Graph) (start endNode : String)
    (node_positions : List (String × NodePosition)) (sq : ℚ → ℚ)
    (hstart : start ∈ g.nodes) (hnd : g.nodes.Nodup)
    (hep : ∀ e ∈ g.edges, e.from_ ∈ g.nodes ∧ e.«to» ∈ g.nodes)
    (hpos : ∀ n ∈ g.nodes, (lookupKV node_positions n).isSome = true)
    (hendn : endNode ∈ g.nodes) :
    ∃ h0 stf,
      heuristicOf node_positions sq endNode start = Except.ok h0 ∧
      searchLoop g.nodes g.adj endNode (heuristicOf node_positions sq endNode)
        (searchFuel g)
        ⟨[⟨h0, 0, start⟩], fun n => if n = start then some 0 else none, [], [], []⟩ =
        LoopRes.done stf ∧
      g.astar start endNode node_positions sq =
        Except.ok (reconstructPath stf.prev start endNode (g.nodes.length + 1), stf.steps) ∧
      GInv g.nodes g.adj start endNode (heuristicOf node_positions sq endNode) stf ∧
      TraceInv g.nodes g.adj start stf ∧
      Processed g.adj endNode stf ∧
      (stf.pq = [] ∧ endNode ∉ stf.visitedL ∨ endNode ∈ stf.visitedL) := by
  have hadjT : ∀ u v w, (v, w) ∈ g.adj u → v ∈ g.nodes :=
    fun u v w hm => adj_target_mem hep hm
  have htotal : ∀ n ∈ g.nodes, ∃ q, heuristicOf node_positions sq endNode n =
      Except.ok q := by
    intro n hn
    unfold heuristicOf
    cases hlp : lookupKV node_positions n with
    | none =>
      have := hpos n hn
      rw [hlp] at this
      cases this
    | some p =>
      cases hle : lookupKV node_positions endNode with
      | none =>
        have := hpos endNode hendn
        rw [hle] at this
        cases this
      | some p2 => exact ⟨_, rfl⟩
  obtain ⟨h0, hh0⟩ := htotal start hstart
  have hg0 := @GInv_init g.nodes g.adj start endNode (heuristicOf node_positions sq endNode)
    hstart h0 hh0
  have ht0 := @TraceInv_init g.nodes g.adj start
    [⟨h0, 0, start⟩] (fun n => if n = start then some 0 else none)
  have hphi : phiPot g.nodes g.adj
      ⟨[⟨h0, 0, start⟩], fun n => if n = start then some 0 else none, [], [], []⟩ <
      searchFuel g := by
    rw [phiPot_init, sum_adj_lengths g hnd hep]
    unfold searchFuel
    simp only [List.length_singleton]
    omega
  obtain ⟨stf, hdone⟩ := searchLoop_completes hadjT htotal (searchFuel g) _ hg0 ht0 hphi
  obtain ⟨gf, tf, pf, hfin⟩ := searchLoop_done_inv hadjT (searchFuel g) _ stf hg0 ht0
    (Processed_init _ _) (List.not_mem_nil endNode) hdone
  refine ⟨h0, stf, hh0, hdone, ?_, gf, tf, pf, hfin⟩
  simp only [Graph.astar, hh0]
  rw [hdone]


/-! ### Path reconstruction -/

theorem visited_length_le {nodes : List String} {adj : String → List (String × ℚ)}
    {start endNode : String} {h : String → Except String ℚ} {st : SearchState}
    (hg : GInv nodes adj start endNode h st) : st.visitedL.length ≤ nodes.length :=
  (List.subperm_of_subset hg.visNodup (fun x hx => hg.visSub x hx)).length_le

theorem walkBack_spec {nodes : List String} {adj : String → List (String × ℚ)}
    {start endNode : String} {h : String → Except String ℚ} {st : SearchState}
    (hg : GInv nodes adj start endNode h st) (hnoE : "" ∉ nodes) :
    ∀ (fuel : ℕ) (n : String), n ∈ st.visitedL → posOf st.visitedL n < fuel →
      ∀ acc, ∃ l c, walkBack st.prev fuel (some n) acc = l ++ acc ∧
        IsChain adj l c ∧ l.head? = some start ∧ l.getLast? = some n ∧
        st.dist n = some c := by
  intro fuel
  induction fuel with
  | zero =>
    intro n _ hpos
    omega
  | succ fuel ih =>
    intro n hn hpos acc
    have hne : n ≠ "" := fun hc => hnoE (hc ▸ hg.visSub n hn)
    rw [walkBack, if_neg hne]
    cases hlp : lookupKV st.prev n with
    | none =>
      have hstart : n = start := by
        obtain ⟨c, hc⟩ := hg.visDist n hn
        by_contra hne2
        have hd : st.dist n = none := (hg.distNone n).mpr ⟨hne2, hlp⟩
        rw [hc] at hd
        cases hd
      have hwb : walkBack st.prev fuel none (n :: acc) = n :: acc := by
        cases fuel <;> rfl
      rw [hwb]
      refine ⟨[n], 0, rfl, IsChain.single n, by rw [hstart]; rfl, by simp, ?_⟩
      rw [hstart]
      exact hg.distStart
    | some p =>
      obtain ⟨hpv, w, cp, hedge, hdp, hdn⟩ := hg.prevConsist n p hlp
      have hplt : posOf st.visitedL p < posOf st.visitedL n := hg.prevIdx n p hlp hn
      have hpfuel : posOf st.visitedL p < fuel := by omega
      obtain ⟨l, c, hwb, hchain, hhead, hlast, hdc⟩ := ih p hpv hpfuel (n :: acc)
      have hccp : c = cp := by
        rw [hdp] at hdc
        injection hdc with h2
        exact h2.symm
      subst hccp
      refine ⟨l ++ [n], c + w, ?_, hchain.snocChain hlast hedge, ?_, List.getLast?_concat l, hdn⟩
      · rw [hwb, List.append_assoc]
        rfl
      · cases l with
        | nil => cases hhead
        | cons a t => simpa using hhead

theorem reconstruct_of_ne_nil {nodes : List String} {adj : String → List (String × ℚ)}
    {start endNode : String} {h : String → Except String ℚ} {st : SearchState}
    (hg : GInv nodes adj start endNode h st) (hnoE : "" ∉ nodes)
    (hfin : st.pq = [] ∧ endNode ∉ st.visitedL ∨ endNode ∈ st.visitedL)
    (hne : reconstructPath st.prev start endNode (nodes.length + 1) ≠ []) :
    endNode ∈ st.visitedL ∧
    ∃ c, IsChain adj (reconstructPath st.prev start endNode (nodes.length + 1)) c ∧
      (reconstructPath st.prev start endNode (nodes.length + 1)).head? = some start ∧
      (reconstructPath st.prev start endNode (nodes.length + 1)).getLast? = some endNode ∧
      st.dist endNode = some c := by
  have hvmem : endNode ∈ st.visitedL := by
    rcases hfin with ⟨hpq, hnv⟩ | hv
    · exfalso
      have hvne : st.visitedL ≠ [] := by
        intro hc
        obtain ⟨hne2, _, _, _, _⟩ := hg.initState hc
        exact hne2 hpq
      unfold reconstructPath at hne
      by_cases hguard : (lookupKV st.prev endNode).isSome = true ∨ start = endNode
      · rcases hguard with hsome | hse
        · cases hlp : lookupKV st.prev endNode with
          | none => rw [hlp] at hsome; cases hsome
          | some p =>
            have hdsome : ∃ c, st.dist endNode = some c := by
              cases hd : st.dist endNode with
              | none =>
                obtain ⟨_, hl2⟩ := (hg.distNone endNode).mp hd
                rw [hl2] at hlp
                cases hlp
              | some c => exact ⟨c, rfl⟩
            obtain ⟨c, hc⟩ := hdsome
            obtain ⟨e2, he2, _, _⟩ := hg.unsettledEntry endNode c hc hnv
            rw [hpq] at he2
            cases he2
        · exact hnv (hse ▸ hg.visStart hvne)
      · rw [if_neg hguard] at hne
        exact hne rfl
    · exact hv
  refine ⟨hvmem, ?_⟩
  have hpos : posOf st.visitedL endNode < nodes.length + 1 := by
    have h1 := posOf_lt_length hvmem
    have h2 := visited_length_le hg
    omega
  obtain ⟨l, c, hwb, hchain, hhead, hlast, hdc⟩ :=
    walkBack_spec hg hnoE (nodes.length + 1) endNode hvmem hpos []
  have hguard : (lookupKV st.prev endNode).isSome = true ∨ start = endNode := by
    unfold reconstructPath at hne
    by_contra hcon
    rw [if_neg hcon] at hne
    exact hne rfl
  have hpath : reconstructPath st.prev start endNode (nodes.length + 1) = l := by
    unfold reconstructPath
    rw [if_pos hguard, hwb, List.append_nil]
  rw [hpath]
  exact ⟨c, hchain, hhead, hlast, hdc⟩

/-! ### Settled nodes are exactly the reachable nodes at exhaustion -/

theorem settled_of_reachable {nodes : List String} {adj : String → List (String × ℚ)}
    {start endNode : String} {h : String → Except String ℚ} {st : SearchState}
    (hg : GInv nodes adj start endNode h st) (hproc : Processed adj endNode st)
    (hpq : st.pq = []) (hendnv : endNode ∉ st.visitedL) :
    ∀ u, u ∈ st.visitedL → ∀ n c, IsWalk adj u n c → n ∈ st.visitedL := by
  intro u hu n c hw
  revert hu
  induction hw with
  | nil => exact fun hu => hu
  | @cons u2 v t w c2 hedge hw2 ih =>
    intro hu
    have hu2e : u2 ≠ endNode := fun hc => hendnv (hc ▸ hu)
    have hv : v ∈ st.visitedL := by
      rcases hproc u2 hu with hc | hcond
      · exact absurd hc hu2e
      · rcases hcond v w hedge with hvm | ⟨cv, cn, _, hcn, _⟩
        · exact hvm
        · by_contra hnv
          obtain ⟨e2, he2, _, _⟩ := hg.unsettledEntry v cn hcn hnv
          rw [hpq] at he2
          cases he2
    exact ih hv

theorem settled_iff_reachable {nodes : List String} {adj : String → List (String × ℚ)}
    {start endNode : String} {h : String → Except String ℚ} {st : SearchState}
    (hg : GInv nodes adj start endNode h st) (hproc : Processed adj endNode st)
    (hpq : st.pq = []) (hendnv : endNode ∉ st.visitedL) :
    ∀ n, n ∈ st.visitedL ↔ ∃ c, IsWalk adj start n c := by
  have hvne : st.visitedL ≠ [] := by
    intro hc
    obtain ⟨hne2, _, _, _, _⟩ := hg.initState hc
    exact hne2 hpq
  have hstart : start ∈ st.visitedL := hg.visStart hvne
  intro n
  constructor
  · intro hn
    obtain ⟨c, hc⟩ := hg.visDist n hn
    exact ⟨c, hg.distWalk n c hc⟩
  · rintro ⟨c, hw⟩
    exact settled_of_reachable hg hproc hpq hendnv start hstart n c hw


/-! ### Dijkstra optimality -/

theorem walk_frontier_bound {nodes : List String} {adj : String → List (String × ℚ)}
    {start endNode : String} {h : String → Except String ℚ} {st : SearchState}
    (hg : GInv nodes adj start endNode h st)
    (hproc : Processed adj endNode st)
    (hopt : SettledOpt adj start st)
    (hwnn : ∀ u v w, (v, w) ∈ adj u → 0 ≤ w)
    (hendnv : endNode ∉ st.visitedL) :
    ∀ (x n : String) (c2 : ℚ), IsWalk adj x n c2 →
      ∀ cx, x ∈ st.visitedL → st.dist x = some cx → n ∉ st.visitedL →
      ∃ u cu, u ∉ st.visitedL ∧ st.dist u = some cu ∧ cu ≤ cx + c2 := by
  intro x n c2 hw
  induction hw with
  | nil =>
    intro cx hx _ hn
    exact absurd hx hn
  | @cons u2 v t w c hedge hw2 ih =>
    intro cx hx hdx hn
    have hu2e : u2 ≠ endNode := fun hc => hendnv (hc ▸ hx)
    by_cases hv : v ∈ st.visitedL
    · obtain ⟨cv, hdv⟩ := hg.visDist v hv
      have hwalkv : IsWalk adj start v (cx + w) := (hg.distWalk u2 cx hdx).snoc hedge
      have hcvle : cv ≤ cx + w := hopt v hv cv hdv (cx + w) hwalkv
      obtain ⟨u, cu, hu, hdu, hcu⟩ := ih cv hv hdv hn
      exact ⟨u, cu, hu, hdu, by linarith⟩
    · rcases hproc u2 hx with hc | hcond
      · exact absurd hc hu2e
      · rcases hcond v w hedge with hvm | ⟨cv2, cn, hdv2, hcn, hle⟩
        · exact absurd hvm hv
        · have hcv2 : cv2 = cx := by
            rw [hdx] at hdv2
            injection hdv2 with h2
            exact h2.symm
          rw [hcv2] at hle
          have hcnn : (0 : ℚ) ≤ c := hw2.nonneg hwnn
          exact ⟨v, cn, hv, hcn, by linarith⟩

theorem settle_opt {nodes : List String} {adj : String → List (String × ℚ)}
    {start endNode : String} {st : SearchState} {e : Entry} {rest : List Entry}
    (hg : GInv nodes adj start endNode (fun _ => Except.ok 0) st)
    (hproc : Processed adj endNode st)
    (hopt : SettledOpt adj start st)
    (hwnn : ∀ u v w, (v, w) ∈ adj u → 0 ≤ w)
    (hendnv : endNode ∉ st.visitedL)
    (hpop : popMin st.pq = some (e, rest))
    (hnv : e.node ∉ st.visitedL) :
    ∀ cm, st.dist e.node = some cm → ∀ c2, IsWalk adj start e.node c2 → cm ≤ c2 := by
  intro cm hcm c2 hwalk
  obtain ⟨hmem, _, hmin⟩ := popMin_spec hpop
  have hp1e : e.p1 = e.p2 := by
    have h2 := hg.hEntry e hmem
    have h3 : (0 : ℚ) = e.p1 - e.p2 := by
      injection h2
    linarith
  obtain ⟨c3, hc3, hc3le⟩ := hg.pqDist e hmem
  have hc3m : c3 = cm := by
    rw [hcm] at hc3
    injection hc3 with h2
    exact h2.symm
  by_cases hv0 : st.visitedL = []
  · obtain ⟨_, hents, _, _, _⟩ := hg.initState hv0
    have hen : e.node = start := (hents e hmem).1
    have hd : st.dist e.node = some 0 := by
      rw [hen]
      exact hg.distStart
    have hcm0 : cm = 0 := by
      rw [hd] at hcm
      injection hcm with h2
      exact h2.symm
    rw [hcm0]
    exact hwalk.nonneg hwnn
  · have hstart : start ∈ st.visitedL := hg.visStart hv0
    obtain ⟨u, cu, hu, hdu, hcu⟩ :=
      walk_frontier_bound hg hproc hopt hwnn hendnv start e.node c2 hwalk 0 hstart
        hg.distStart hnv
    obtain ⟨eu, heu, heun, heup2⟩ := hg.unsettledEntry u cu hdu hu
    have hp1u : eu.p1 = eu.p2 := by
      have h2 := hg.hEntry eu heu
      have h3 : (0 : ℚ) = eu.p1 - eu.p2 := by
        injection h2
      linarith
    have hle1 : e.p1 ≤ eu.p1 := entryLe_p1 (hmin eu heu)
    linarith

theorem SettledOpt_step {adj : String → List (String × ℚ)} {start : String}
    {st st2 : SearchState} {cur : String}
    (hopt : SettledOpt adj start st)
    (hv2 : st2.visitedL = st.visitedL ++ [cur])
    (hdvis : ∀ n, n ∈ st.visitedL ++ [cur] → st2.dist n = st.dist n)
    (hcuropt : ∀ cm, st.dist cur = some cm → ∀ c2, IsWalk adj start cur c2 → cm ≤ c2) :
    SettledOpt adj start st2 := by
  intro v hv cv hdv c2 hw
  rw [hv2] at hv
  have hdeq := hdvis v hv
  rw [hdeq] at hdv
  rcases List.mem_append.mp hv with hm | hm
  · exact hopt v hm cv hdv c2 hw
  · simp only [List.mem_singleton] at hm
    subst hm
    exact hcuropt cv hdv c2 hw

theorem searchLoop_opt {nodes : List String} {adj : String → List (String × ℚ)}
    {start endNode : String}
    (hadjT : ∀ u v w, (v, w) ∈ adj u → v ∈ nodes)
    (hwnn : ∀ u v w, (v, w) ∈ adj u → 0 ≤ w) :
    ∀ (fuel : ℕ) (st stf : SearchState),
      GInv nodes adj start endNode (fun _ => Except.ok 0) st →
      TraceInv nodes adj start st →
      Processed adj endNode st →
      SettledOpt adj start st →
      endNode ∉ st.visitedL →
      searchLoop nodes adj endNode (fun _ => Except.ok 0) fuel st = LoopRes.done stf →
      SettledOpt adj start stf := by
  intro fuel
  induction fuel with
  | zero =>
    intro st stf _ _ _ _ _ hrun
    cases hrun
  | succ fuel ih =>
    intro st stf hg ht hproc hopt hend hrun
    unfold searchLoop at hrun
    cases hpop : popMin st.pq with
    | none =>
      rw [hpop] at hrun
      injection hrun with hrun
      subst hrun
      exact hopt
    | some pr =>
      obtain ⟨e, rest⟩ := pr
      rw [hpop] at hrun
      simp only [] at hrun
      by_cases hvis : e.node ∈ st.visitedL
      · rw [if_pos hvis] at hrun
        refine ih _ stf (skip_GInv hg hpop hvis) ?_ hproc hopt hend hrun
        exact
          { snapSentinel := ht.snapSentinel
            headVisited := ht.headVisited
            chainVisited := ht.chainVisited
            pairMono := ht.pairMono
            lastLink := ht.lastLink }
      · rw [if_neg hvis] at hrun
        have hcuropt := settle_opt hg hproc hopt hwnn hend hpop hvis
        by_cases hbreak : e.node = endNode
        · rw [if_pos hbreak] at hrun
          injection hrun with hrun
          subst hrun
          refine SettledOpt_step hopt (settleState_visitedL _ _ _ _) ?_ hcuropt
          intro n _
          rfl
        · rw [if_neg hbreak] at hrun
          cases hrel : relaxList (fun _ => Except.ok 0) e.node (adj e.node)
              (settleState nodes st e rest) with
          | error k =>
            rw [hrel] at hrun
            cases hrun
          | ok st2 =>
            rw [hrel] at hrun
            have hg1 := settle_GInv hg hpop hvis
            have ht1 := settle_TraceInv hg ht hpop hvis
            have hcur1 : e.node ∈ (settleState nodes st e rest).visitedL := by
              rw [settleState_visitedL]
              exact List.mem_append_right _ (by simp)
            obtain ⟨g2, t2, hv2, hs2, _, hdle, hdvis, _, hrelc⟩ :=
              relaxList_spec hadjT e.node (adj e.node) _ st2 hg1 ht1 hcur1
                (fun x hx => hx) hrel
            have hproc2 : Processed adj endNode st2 :=
              @Processed_settle_relax adj endNode _ st2 e.node hproc
                (by rw [hv2, settleState_visitedL])
                (fun n hn => hdvis n hn) (fun n => hdle n)
                (fun nbr w ha => hrelc nbr w ha)
            have hopt2 : SettledOpt adj start st2 :=
              SettledOpt_step hopt (by rw [hv2, settleState_visitedL])
                (fun n hn => hdvis n hn) hcuropt
            have hend2 : endNode ∉ st2.visitedL := by
              rw [hv2, settleState_visitedL]
              intro hc
              rcases List.mem_append.mp hc with hc | hc
              · exact hend hc
              · simp only [List.mem_singleton] at hc
                exact hbreak hc.symm
            exact ih st2 stf g2 t2 hproc2 hopt2 hend2 hrun


/-! ### Small helper lemmas for the claims -/

theorem round2_zero : round2 0 = 0 := by
  with_unfolding_all decide

theorem no_walk_no_edges {g : Graph} (hE : g.edges = []) {u v : String} (hne : u ≠ v) :
    ∀ c, ¬ IsWalk g.adj u v c := by
  have hadj : ∀ n, g.adj n = [] := by
    intro n
    unfold Graph.adj
    rw [hE]
    rfl
  intro c hw
  cases hw with
  | nil => exact hne rfl
  | cons hm _ =>
    rw [hadj] at hm
    exact absurd hm (List.not_mem_nil _)

theorem unreach_final_state {nodes : List String} {adj : String → List (String × ℚ)}
    {start endNode : String} {h : String → Except String ℚ} {stf : SearchState}
    (gf : GInv nodes adj start endNode h stf) (pf : Processed adj endNode stf)
    (hfin : stf.pq = [] ∧ endNode ∉ stf.visitedL ∨ endNode ∈ stf.visitedL)
    (hse : start ≠ endNode)
    (hunreach : ∀ c, ¬ IsWalk adj start endNode c) :
    reconstructPath stf.prev start endNode (nodes.length + 1) = [] ∧
    ∀ n, n ∈ stf.steps.map PathStep.current ↔ ∃ c, IsWalk adj start n c := by
  have hendnv : endNode ∉ stf.visitedL := by
    intro hv
    obtain ⟨c, hc⟩ := gf.visDist _ hv
    exact hunreach c (gf.distWalk _ c hc)
  have hpq : stf.pq = [] := by
    rcases hfin with ⟨h1, _⟩ | hv
    · exact h1
    · exact absurd hv hendnv
  have hlp : lookupKV stf.prev endNode = none := by
    cases hl : lookupKV stf.prev endNode with
    | none => rfl
    | some p =>
      obtain ⟨_, w, cp, hedge, hdp, hdn⟩ := gf.prevConsist _ p hl
      exact absurd (gf.distWalk _ _ hdn) (hunreach _)
  refine ⟨?_, ?_⟩
  · unfold reconstructPath
    rw [if_neg]
    intro hor
    rcases hor with hsome | hseq
    · rw [hlp] at hsome
      simp at hsome
    · exact hse hseq
  · intro n
    rw [gf.stepsCur]
    exact settled_iff_reachable gf pf hpq hendnv n

/-! ### The claims -/

/-- C1 (amended): on a graph with nonnegative raw attributes, node names drawn
from the declared list, a settled start and no node named `""`, a non-empty
dijkstra result is a start-to-end chain of the policy adjacency whose cost is
minimal over every start-to-end walk.  The literal claim is refuted by
`c1_counterexample`: a node named `""` truncates the reconstruction. -/
theorem c1_theorem (g : Graph) (start endNode : String)
    (hstart : start ∈ g.nodes) (hnd : g.nodes.Nodup)
    (hep : ∀ e ∈ g.edges, e.from_ ∈ g.nodes ∧ e.«to» ∈ g.nodes)
    (hw : ∀ e ∈ g.edges, 0 ≤ e.distance ∧ 0 ≤ e.traffic)
    (hnoE : "" ∉ g.nodes)
    (hne : (g.dijkstra start endNode).1 ≠ []) :
    ∃ c, IsChain g.adj (g.dijkstra start endNode).1 c ∧
      (g.dijkstra start endNode).1.head? = some start ∧
      (g.dijkstra start endNode).1.getLast? = some endNode ∧
      ∀ c2, IsWalk g.adj start endNode c2 → c ≤ c2 := by
  obtain ⟨stf, hdone, heq, gf, tf, pf, hfin⟩ := dijkstra_master g start endNode hstart hnd hep
  have hadjT : ∀ u v w, (v, w) ∈ g.adj u → v ∈ g.nodes :=
    fun u v w hm => adj_target_mem hep hm
  have hwnn := adj_weight_nonneg hw
  have hg0 := @GInv_init g.nodes g.adj start endNode (fun _ => Except.ok 0) hstart 0 rfl
  have ht0 := @TraceInv_init g.nodes g.adj start [⟨0, 0, start⟩]
    (fun n => if n = start then some 0 else none)
  have hopt := searchLoop_opt hadjT hwnn (searchFuel g) _ stf hg0 ht0
    (Processed_init _ _) (fun v hv => absurd hv (List.not_mem_nil v))
    (List.not_mem_nil endNode) hdone
  rw [heq] at hne ⊢
  obtain ⟨hvm, c, hchain, hhead, hlast, hdist⟩ := reconstruct_of_ne_nil gf hnoE hfin hne
  exact ⟨c, hchain, hhead, hlast, fun c2 hw2 => hopt endNode hvm c hdist c2 hw2⟩

/-- C1 witness: the amended optimality at the square graph from A to D. -/
theorem c1_witness :
    (("A" ∈ squareGraph.nodes) ∧ squareGraph.nodes.Nodup ∧
      (∀ e ∈ squareGraph.edges, e.from_ ∈ squareGraph.nodes ∧ e.«to» ∈ squareGraph.nodes) ∧
      (∀ e ∈ squareGraph.edges, 0 ≤ e.distance ∧ 0 ≤ e.traffic) ∧
      ("" ∉ squareGraph.nodes) ∧ (squareGraph.dijkstra "A" "D").1 ≠ []) ∧
    ∃ c, IsChain squareGraph.adj (squareGraph.dijkstra "A" "D").1 c ∧
      (squareGraph.dijkstra "A" "D").1.head? = some "A" ∧
      (squareGraph.dijkstra "A" "D").1.getLast? = some "D" ∧
      ∀ c2, IsWalk squareGraph.adj "A" "D" c2 → c ≤ c2 :=
  ⟨⟨by decide, by decide, by decide, by with_unfolding_all decide, by decide,
    by with_unfolding_all decide⟩,
   c1_theorem squareGraph "A" "D" (by decide) (by decide) (by decide)
     (by with_unfolding_all decide) (by decide) (by with_unfolding_all decide)⟩

/-- C1 counterexample: with a node named `""` on the optimal route, dijkstra
returns the non-empty path `["B"]`, which does not start at the start node A
(Python truthiness stops the reconstruction at the empty string), although an
A-to-B walk of cost 2 exists. -/
theorem c1_counterexample :
    (emptyNameGraph.dijkstra "A" "B").1 = ["B"] ∧
    (emptyNameGraph.dijkstra "A" "B").1 ≠ [] ∧
    (emptyNameGraph.dijkstra "A" "B").1.head? ≠ some "A" ∧
    IsWalk emptyNameGraph.adj "A" "B" 2 := by
  refine ⟨by with_unfolding_all decide, by with_unfolding_all decide,
    by with_unfolding_all decide, ?_⟩
  have h1 : ("", (1 : ℚ)) ∈ emptyNameGraph.adj "A" := by with_unfolding_all decide
  have h2 : ("B", (1 : ℚ)) ∈ emptyNameGraph.adj "" := by with_unfolding_all decide
  have h3 : (2 : ℚ) = 1 + (1 + 0) := by norm_num
  rw [h3]
  exact IsWalk.cons h1 (IsWalk.cons h2 (IsWalk.nil "B"))

/-- C3 (amended): an unrecognized weight policy is not rejected anywhere;
`_get_weight` silently falls into the combined default
`distance + traffic * 2`. -/
theorem c3_theorem (g : Graph) (e : Edge)
    (h1 : g.weight_type ≠ "distance") (h2 : g.weight_type ≠ "traffic") :
    g.get_weight e = e.distance + e.traffic * 2 := by
  unfold Graph.get_weight
  rw [if_neg h1, if_neg h2]

/-- C3 witness: the policy `"bogus"` takes the combined default on a concrete
edge. -/
theorem c3_witness :
    (Graph.mk ["A", "B"] [⟨"A", "B", 1, 3⟩] "bogus").weight_type ≠ "distance" ∧
    (Graph.mk ["A", "B"] [⟨"A", "B", 1, 3⟩] "bogus").weight_type ≠ "traffic" ∧
    Graph.get_weight (Graph.mk ["A", "B"] [⟨"A", "B", 1, 3⟩] "bogus") ⟨"A", "B", 1, 3⟩ =
      (1 : ℚ) + 3 * 2 :=
  ⟨by decide, by decide,
   c3_theorem (Graph.mk ["A", "B"] [⟨"A", "B", 1, 3⟩] "bogus") ⟨"A", "B", 1, 3⟩
     (by decide) (by decide)⟩

/-- C3 counterexample: a request with the unknown policy `"bogus"` is not
rejected before graph construction or search: the handler answers success with
a route, the policy silently mapped to the combined weight (here 7). -/
theorem c3_counterexample :
    outSuccess (calculate_route (fun q => q) bogusPolicyReq) = true ∧
    outPath (calculate_route (fun q => q) bogusPolicyReq) = ["A", "B"] ∧
    Graph.get_weight ⟨bogusPolicyReq.nodes, bogusPolicyReq.edges, bogusPolicyReq.weightType⟩
      ⟨"A", "B", 1, 3⟩ = 7 := by
  with_unfolding_all decide

/-- C4 (under the settlement-order modelling of `list(visited)`, see the module
comment): along every dijkstra and every astar trace the first snapshot's
visited list is its current node alone and every later snapshot's visited
list appends exactly its own current node to the previous snapshot's list. -/
theorem c4_theorem (g : Graph) (start endNode : String)
    (hstart : start ∈ g.nodes) (hnd : g.nodes.Nodup)
    (hep : ∀ e ∈ g.edges, e.from_ ∈ g.nodes ∧ e.«to» ∈ g.nodes) :
    ((∀ s, (g.dijkstra start endNode).2.head? = some s → s.visited = [s.current]) ∧
      ∀ k s s2, (g.dijkstra start endNode).2[k]? = some s →
        (g.dijkstra start endNode).2[k + 1]? = some s2 →
        s2.visited = s.visited ++ [s2.current]) ∧
    ∀ (node_positions : List (String × NodePosition)) (sq : ℚ → ℚ),
      (∀ n ∈ g.nodes, (lookupKV node_positions n).isSome = true) → endNode ∈ g.nodes →
      ∀ path steps, g.astar start endNode node_positions sq = Except.ok (path, steps) →
      (∀ s, steps.head? = some s → s.visited = [s.current]) ∧
      ∀ k s s2, steps[k]? = some s → steps[k + 1]? = some s2 →
        s2.visited = s.visited ++ [s2.current] := by
  constructor
  · obtain ⟨stf, hdone, heq, gf, tf, pf, hfin⟩ := dijkstra_master g start endNode hstart hnd hep
    rw [heq]
    exact ⟨tf.headVisited, tf.chainVisited⟩
  · intro node_positions sq hpos hendn path steps hrun
    obtain ⟨h0, stf, hh0, hdone, heq, gf, tf, pf, hfin⟩ :=
      astar_master g start endNode node_positions sq hstart hnd hep hpos hendn
    rw [heq] at hrun
    injection hrun with hrun
    have hsteps : steps = stf.steps := (congrArg Prod.snd hrun).symm
    subst hsteps
    exact ⟨tf.headVisited, tf.chainVisited⟩

/-- C4 witness: the snapshot visited lists chain in settlement order on the
square graph, for dijkstra and astar alike. -/
theorem c4_witness :
    (("A" ∈ squareGraph.nodes) ∧ squareGraph.nodes.Nodup ∧
      (∀ e ∈ squareGraph.edges, e.from_ ∈ squareGraph.nodes ∧ e.«to» ∈ squareGraph.nodes)) ∧
    (((∀ s, (squareGraph.dijkstra "A" "D").2.head? = some s → s.visited = [s.current]) ∧
      ∀ k s s2, (squareGraph.dijkstra "A" "D").2[k]? = some s →
        (squareGraph.dijkstra "A" "D").2[k + 1]? = some s2 →
        s2.visited = s.visited ++ [s2.current]) ∧
    ∀ (node_positions : List (String × NodePosition)) (sq : ℚ → ℚ),
      (∀ n ∈ squareGraph.nodes, (lookupKV node_positions n).isSome = true) →
      "D" ∈ squareGraph.nodes →
      ∀ path steps, squareGraph.astar "A" "D" node_positions sq = Except.ok (path, steps) →
      (∀ s, steps.head? = some s → s.visited = [s.current]) ∧
      ∀ k s s2, steps[k]? = some s → steps[k + 1]? = some s2 →
        s2.visited = s.visited ++ [s2.current]) :=
  ⟨⟨by decide, by decide, by decide⟩,
   c4_theorem squareGraph "A" "D" (by decide) (by decide) (by decide)⟩

/-- C6: on the 4-node square graph with unit edges and the heavy direct edge,
dijkstra from A to D under the distance policy answers success with path
A,B,C,D, total distance 3 and total traffic 0. -/
theorem c6_theorem :
    outSuccess (calculate_route (fun q => q) squareReq) = true ∧
    outPath (calculate_route (fun q => q) squareReq) = ["A", "B", "C", "D"] ∧
    outTotalDistance (calculate_route (fun q => q) squareReq) = 3 ∧
    outTotalTraffic (calculate_route (fun q => q) squareReq) = 0 := by
  with_unfolding_all decide

/-- C7 (amended): under astar, every missing-position `KeyError` - wherever
the position lookup fails during the search - is answered through the generic
internal error channel, HTTP 500 with `str(e)` (the repr-quoted missing key)
as detail, not as a distinct validation error; in particular a missing start
position fails exactly this way before the loop runs. -/
theorem c7_theorem (sq : ℚ → ℚ) (req : RouteRequest)
    (halg : req.algorithm = "astar") :
    (∀ k, Graph.astar ⟨req.nodes, req.edges, req.weightType⟩ req.start req.end_
        req.nodePositions sq = Except.error k →
      calculate_route sq req = Outcome.httpError 500 k) ∧
    (lookupKV req.nodePositions req.start = none →
      Graph.astar ⟨req.nodes, req.edges, req.weightType⟩ req.start req.end_
        req.nodePositions sq = Except.error ("\x27" ++ req.start ++ "\x27")) := by
  have hne : req.algorithm ≠ "dijkstra" := by
    rw [halg]
    decide
  constructor
  · intro k herr
    simp only [calculate_route, runAlgorithm]
    rw [if_neg hne, if_pos halg, herr]
  · intro hmiss
    simp only [Graph.astar, heuristicOf]
    rw [hmiss]

/-- C7 witness: the empty positions map of `missingStartPosReq` makes the
start lookup fail, and every such failure is an HTTP 500. -/
theorem c7_witness :
    missingStartPosReq.algorithm = "astar" ∧
    ((∀ k, Graph.astar ⟨missingStartPosReq.nodes, missingStartPosReq.edges,
          missingStartPosReq.weightType⟩ missingStartPosReq.start missingStartPosReq.end_
        missingStartPosReq.nodePositions (fun q => q) = Except.error k →
      calculate_route (fun q => q) missingStartPosReq = Outcome.httpError 500 k) ∧
    (lookupKV missingStartPosReq.nodePositions missingStartPosReq.start = none →
      Graph.astar ⟨missingStartPosReq.nodes, missingStartPosReq.edges,
          missingStartPosReq.weightType⟩ missingStartPosReq.start missingStartPosReq.end_
        missingStartPosReq.nodePositions (fun q => q) =
        Except.error ("\x27" ++ missingStartPosReq.start ++ "\x27"))) :=
  ⟨rfl, c7_theorem (fun q => q) missingStartPosReq rfl⟩

/-- C7 counterexample: a missing end position and a missing intermediate
position (the `KeyError` arises during relaxation of the first settled node)
are both answered as the generic HTTP 500 internal error with `str(e)` - the
repr-quoted key - as detail, exactly like an unknown algorithm name is, so
neither is distinct from a generic internal error. -/
theorem c7_counterexample :
    calculate_route (fun q => q) missingEndPosReq = Outcome.httpError 500 "\x27B\x27" ∧
    calculate_route (fun q => q) missingMidPosReq = Outcome.httpError 500 "\x27B\x27" ∧
    calculate_route (fun q => q) unknownAlgReq =
      Outcome.httpError 500 "400: Invalid algorithm" := by
  with_unfolding_all decide

/-- C8: in every snapshot of a dijkstra or astar trace every declared node has
a finite rendered cost: the exact sentinel `999999` when it is not reached
yet, and the cost of a genuine start-to-node walk once reached. -/
theorem c8_theorem (g : Graph) (start endNode : String)
    (hstart : start ∈ g.nodes) (hnd : g.nodes.Nodup)
    (hep : ∀ e ∈ g.edges, e.from_ ∈ g.nodes ∧ e.«to» ∈ g.nodes) :
    (∀ s ∈ (g.dijkstra start endNode).2, ∀ n ∈ g.nodes,
      ∃ v, lookupKV s.distances n = some v ∧
        ((n = start ∨ (lookupKV s.previous n).isSome = true) → IsWalk g.adj start n v) ∧
        ((n ≠ start ∧ lookupKV s.previous n = none) → v = 999999)) ∧
    ∀ (node_positions : List (String × NodePosition)) (sq : ℚ → ℚ),
      (∀ n ∈ g.nodes, (lookupKV node_positions n).isSome = true) → endNode ∈ g.nodes →
      ∀ path steps, g.astar start endNode node_positions sq = Except.ok (path, steps) →
      ∀ s ∈ steps, ∀ n ∈ g.nodes,
        ∃ v, lookupKV s.distances n = some v ∧
          ((n = start ∨ (lookupKV s.previous n).isSome = true) → IsWalk g.adj start n v) ∧
          ((n ≠ start ∧ lookupKV s.previous n = none) → v = 999999) := by
  constructor
  · obtain ⟨stf, hdone, heq, gf, tf, pf, hfin⟩ := dijkstra_master g start endNode hstart hnd hep
    rw [heq]
    exact tf.snapSentinel
  · intro node_positions sq hpos hendn path steps hrun
    obtain ⟨h0, stf, hh0, hdone, heq, gf, tf, pf, hfin⟩ :=
      astar_master g start endNode node_positions sq hstart hnd hep hpos hendn
    rw [heq] at hrun
    injection hrun with hrun
    have hsteps : steps = stf.steps := (congrArg Prod.snd hrun).symm
    rw [hsteps]
    exact tf.snapSentinel

/-- C8 witness: the sentinel rendering at the square graph from A to D. -/
theorem c8_witness :
    (("A" ∈ squareGraph.nodes) ∧ squareGraph.nodes.Nodup ∧
      (∀ e ∈ squareGraph.edges, e.from_ ∈ squareGraph.nodes ∧ e.«to» ∈ squareGraph.nodes)) ∧
    ((∀ s ∈ (squareGraph.dijkstra "A" "D").2, ∀ n ∈ squareGraph.nodes,
      ∃ v, lookupKV s.distances n = some v ∧
        ((n = "A" ∨ (lookupKV s.previous n).isSome = true) → IsWalk squareGraph.adj "A" n v) ∧
        ((n ≠ "A" ∧ lookupKV s.previous n = none) → v = 999999)) ∧
    ∀ (node_positions : List (String × NodePosition)) (sq : ℚ → ℚ),
      (∀ n ∈ squareGraph.nodes, (lookupKV node_positions n).isSome = true) →
      "D" ∈ squareGraph.nodes →
      ∀ path steps, squareGraph.astar "A" "D" node_positions sq = Except.ok (path, steps) →
      ∀ s ∈ steps, ∀ n ∈ squareGraph.nodes,
        ∃ v, lookupKV s.distances n = some v ∧
          ((n = "A" ∨ (lookupKV s.previous n).isSome = true) → IsWalk squareGraph.adj "A" n v) ∧
          ((n ≠ "A" ∧ lookupKV s.previous n = none) → v = 999999)) :=
  ⟨⟨by decide, by decide, by decide⟩,
   c8_theorem squareGraph "A" "D" (by decide) (by decide) (by decide)⟩

/-- C9: a node settles at most once, a skipped duplicate frontier entry leaves
no snapshot, so the current nodes of a trace are pairwise distinct and the
trace is no longer than the node list - for dijkstra and for astar. -/
theorem c9_theorem (g : Graph) (start endNode : String)
    (hstart : start ∈ g.nodes) (hnd : g.nodes.Nodup)
    (hep : ∀ e ∈ g.edges, e.from_ ∈ g.nodes ∧ e.«to» ∈ g.nodes) :
    (((g.dijkstra start endNode).2.map PathStep.current).Nodup ∧
      (g.dijkstra start endNode).2.length ≤ g.nodes.length) ∧
    ∀ (node_positions : List (String × NodePosition)) (sq : ℚ → ℚ),
      (∀ n ∈ g.nodes, (lookupKV node_positions n).isSome = true) → endNode ∈ g.nodes →
      ∀ path steps, g.astar start endNode node_positions sq = Except.ok (path, steps) →
      (steps.map PathStep.current).Nodup ∧ steps.length ≤ g.nodes.length := by
  constructor
  · obtain ⟨stf, hdone, heq, gf, tf, pf, hfin⟩ := dijkstra_master g start endNode hstart hnd hep
    rw [heq]
    constructor
    · show (stf.steps.map PathStep.current).Nodup
      rw [gf.stepsCur]
      exact gf.visNodup
    · show stf.steps.length ≤ g.nodes.length
      have h1 := congrArg List.length gf.stepsCur
      rw [List.length_map] at h1
      rw [h1]
      exact visited_length_le gf
  · intro node_positions sq hpos hendn path steps hrun
    obtain ⟨h0, stf, hh0, hdone, heq, gf, tf, pf, hfin⟩ :=
      astar_master g start endNode node_positions sq hstart hnd hep hpos hendn
    rw [heq] at hrun
    injection hrun with hrun
    have hsteps : steps = stf.steps := (congrArg Prod.snd hrun).symm
    subst hsteps
    constructor
    · rw [gf.stepsCur]
      exact gf.visNodup
    · have h1 := congrArg List.length gf.stepsCur
      rw [List.length_map] at h1
      rw [h1]
      exact visited_length_le gf

/-- C9 witness: trace injectivity and length bound at the square graph. -/
theorem c9_witness :
    (("A" ∈ squareGraph.nodes) ∧ squareGraph.nodes.Nodup ∧
      (∀ e ∈ squareGraph.edges, e.from_ ∈ squareGraph.nodes ∧ e.«to» ∈ squareGraph.nodes)) ∧
    ((((squareGraph.dijkstra "A" "D").2.map PathStep.current).Nodup ∧
      (squareGraph.dijkstra "A" "D").2.length ≤ squareGraph.nodes.length) ∧
    ∀ (node_positions : List (String × NodePosition)) (sq : ℚ → ℚ),
      (∀ n ∈ squareGraph.nodes, (lookupKV node_positions n).isSome = true) →
      "D" ∈ squareGraph.nodes →
      ∀ path steps, squareGraph.astar "A" "D" node_positions sq = Except.ok (path, steps) →
      (steps.map PathStep.current).Nodup ∧ steps.length ≤ squareGraph.nodes.length) :=
  ⟨⟨by decide, by decide, by decide⟩,
   c9_theorem squareGraph "A" "D" (by decide) (by decide) (by decide)⟩

/-- C10 (amended): along every dijkstra and every astar trace, between
consecutive snapshots a node's rendered cost never increases, except for the
jump off the `999999` sentinel when the node is first reached, and the cost
of a node already settled at the earlier snapshot is unchanged.  The
unconditional monotonicity of the literal claim is refuted by
`c10_counterexample`. -/
theorem c10_theorem (g : Graph) (start endNode : String)
    (hstart : start ∈ g.nodes) (hnd : g.nodes.Nodup)
    (hep : ∀ e ∈ g.edges, e.from_ ∈ g.nodes ∧ e.«to» ∈ g.nodes) :
    (∀ k s s2, (g.dijkstra start endNode).2[k]? = some s →
      (g.dijkstra start endNode).2[k + 1]? = some s2 → ∀ n ∈ g.nodes,
      ∃ v v2, lookupKV s.distances n = some v ∧ lookupKV s2.distances n = some v2 ∧
        (v2 ≤ v ∨ (v = 999999 ∧ n ≠ start ∧ lookupKV s.previous n = none)) ∧
        (n ∈ s.visited → v2 = v)) ∧
    ∀ (node_positions : List (String × NodePosition)) (sq : ℚ → ℚ),
      (∀ n ∈ g.nodes, (lookupKV node_positions n).isSome = true) → endNode ∈ g.nodes →
      ∀ path steps, g.astar start endNode node_positions sq = Except.ok (path, steps) →
      ∀ k s s2, steps[k]? = some s → steps[k + 1]? = some s2 → ∀ n ∈ g.nodes,
      ∃ v v2, lookupKV s.distances n = some v ∧ lookupKV s2.distances n = some v2 ∧
        (v2 ≤ v ∨ (v = 999999 ∧ n ≠ start ∧ lookupKV s.previous n = none)) ∧
        (n ∈ s.visited → v2 = v) := by
  constructor
  · obtain ⟨stf, hdone, heq, gf, tf, pf, hfin⟩ := dijkstra_master g start endNode hstart hnd hep
    rw [heq]
    exact tf.pairMono
  · intro node_positions sq hpos hendn path steps hrun
    obtain ⟨h0, stf, hh0, hdone, heq, gf, tf, pf, hfin⟩ :=
      astar_master g start endNode node_positions sq hstart hnd hep hpos hendn
    rw [heq] at hrun
    injection hrun with hrun
    have hsteps : steps = stf.steps := (congrArg Prod.snd hrun).symm
    subst hsteps
    exact tf.pairMono

/-- C10 witness: the guarded monotonicity at the square graph, for dijkstra
and astar alike. -/
theorem c10_witness :
    (("A" ∈ squareGraph.nodes) ∧ squareGraph.nodes.Nodup ∧
      (∀ e ∈ squareGraph.edges, e.from_ ∈ squareGraph.nodes ∧ e.«to» ∈ squareGraph.nodes)) ∧
    ((∀ k s s2, (squareGraph.dijkstra "A" "D").2[k]? = some s →
      (squareGraph.dijkstra "A" "D").2[k + 1]? = some s2 → ∀ n ∈ squareGraph.nodes,
      ∃ v v2, lookupKV s.distances n = some v ∧ lookupKV s2.distances n = some v2 ∧
        (v2 ≤ v ∨ (v = 999999 ∧ n ≠ "A" ∧ lookupKV s.previous n = none)) ∧
        (n ∈ s.visited → v2 = v)) ∧
    ∀ (node_positions : List (String × NodePosition)) (sq : ℚ → ℚ),
      (∀ n ∈ squareGraph.nodes, (lookupKV node_positions n).isSome = true) →
      "D" ∈ squareGraph.nodes →
      ∀ path steps, squareGraph.astar "A" "D" node_positions sq = Except.ok (path, steps) →
      ∀ k s s2, steps[k]? = some s → steps[k + 1]? = some s2 → ∀ n ∈ squareGraph.nodes,
      ∃ v v2, lookupKV s.distances n = some v ∧ lookupKV s2.distances n = some v2 ∧
        (v2 ≤ v ∨ (v = 999999 ∧ n ≠ "A" ∧ lookupKV s.previous n = none)) ∧
        (n ∈ s.visited → v2 = v)) :=
  ⟨⟨by decide, by decide, by decide⟩,
   c10_theorem squareGraph "A" "D" (by decide) (by decide) (by decide)⟩

/-- C10 counterexample: with an edge weighing 2000000, node B renders as the
sentinel `999999` in the first snapshot while still unreached, and as its true
cost above `999999` in the next - the recorded cost increases between
consecutive snapshots. -/
theorem c10_counterexample :
    ((hugeWeightGraph.dijkstra "A" "B").2.map PathStep.current = ["A", "B"]) ∧
    (lookupKV ((hugeWeightGraph.dijkstra "A" "B").2.getD 0 noStep).distances "B").getD 0
      ≤ 999999 ∧
    999999 ≤
      (lookupKV ((hugeWeightGraph.dijkstra "A" "B").2.getD 0 noStep).distances "B").getD 0 ∧
    999999 <
      (lookupKV ((hugeWeightGraph.dijkstra "A" "B").2.getD 1 noStep).distances "B").getD 0 ∧
    "B" ∉ ((hugeWeightGraph.dijkstra "A" "B").2.getD 0 noStep).visited := by
  with_unfolding_all decide


/-- C2 (amended): a well-formed request (dijkstra or astar, positions present
for astar) whose target is unreachable from the start (start distinct from
target) is answered success=false with the no-path message, empty path,
totals 0 and an EMPTY steps list - while the search's internal run returns an
empty path together with a trace that settles exactly the nodes reachable
from the start.  The literal claim (the response trace has one snapshot per
reachable node) is refuted by `c2_counterexample`. -/
theorem c2_theorem (sq : ℚ → ℚ) (req : RouteRequest)
    (halg : req.algorithm = "dijkstra" ∨ req.algorithm = "astar")
    (hpos : req.algorithm = "astar" →
      (∀ n ∈ req.nodes, (lookupKV req.nodePositions n).isSome = true) ∧
      req.end_ ∈ req.nodes)
    (hstart : req.start ∈ req.nodes) (hnd : req.nodes.Nodup)
    (hep : ∀ e ∈ req.edges, e.from_ ∈ req.nodes ∧ e.«to» ∈ req.nodes)
    (hse : req.start ≠ req.end_)
    (hunreach : ∀ c, ¬ IsWalk (Graph.adj ⟨req.nodes, req.edges, req.weightType⟩)
      req.start req.end_ c) :
    calculate_route sq req =
      Outcome.ok ⟨false, some "No path found between selected nodes", [], [], 0, 0⟩ ∧
    ∀ path steps, runAlgorithm sq req = Except.ok (path, steps) →
      path = [] ∧
      ∀ n, n ∈ steps.map PathStep.current ↔
        ∃ c, IsWalk (Graph.adj ⟨req.nodes, req.edges, req.weightType⟩) req.start n c := by
  have key : ∃ tsteps, runAlgorithm sq req = Except.ok ([], tsteps) ∧
      ∀ n, n ∈ tsteps.map PathStep.current ↔
        ∃ c, IsWalk (Graph.adj ⟨req.nodes, req.edges, req.weightType⟩) req.start n c := by
    rcases halg with hd | ha
    · obtain ⟨stf, hdone, heq, gf, tf, pf, hfin⟩ :=
        dijkstra_master ⟨req.nodes, req.edges, req.weightType⟩ req.start req.end_
          hstart hnd hep
      obtain ⟨hrec, hiff⟩ := unreach_final_state gf pf hfin hse hunreach
      refine ⟨stf.steps, ?_, hiff⟩
      simp only [runAlgorithm]
      rw [if_pos hd, heq, hrec]
    · obtain ⟨hposall, hendn⟩ := hpos ha
      obtain ⟨h0, stf, hh0, hdone, heq, gf, tf, pf, hfin⟩ :=
        astar_master ⟨req.nodes, req.edges, req.weightType⟩ req.start req.end_
          req.nodePositions sq hstart hnd hep hposall hendn
      obtain ⟨hrec, hiff⟩ := unreach_final_state gf pf hfin hse hunreach
      have hnd2 : req.algorithm ≠ "dijkstra" := by
        rw [ha]
        decide
      refine ⟨stf.steps, ?_, hiff⟩
      simp only [runAlgorithm]
      rw [if_neg hnd2, if_pos ha, heq, hrec]
  obtain ⟨tsteps, hrun, hiff⟩ := key
  constructor
  · simp only [calculate_route]
    rw [hrun]
    rfl
  · intro path steps hrun2
    rw [hrun] at hrun2
    injection hrun2 with hrun2
    have hpath : path = [] := (congrArg Prod.fst hrun2).symm
    have hsteps : steps = tsteps := (congrArg Prod.snd hrun2).symm
    subst hpath
    subst hsteps
    exact ⟨rfl, hiff⟩

/-- C2 witness: the amended no-path behaviour at the edgeless two-node astar
request with both nodes positioned. -/
theorem c2_witness :
    ((edgelessAstarReq.algorithm = "dijkstra" ∨ edgelessAstarReq.algorithm = "astar") ∧
      (edgelessAstarReq.algorithm = "astar" →
        (∀ n ∈ edgelessAstarReq.nodes,
          (lookupKV edgelessAstarReq.nodePositions n).isSome = true) ∧
        edgelessAstarReq.end_ ∈ edgelessAstarReq.nodes) ∧
      edgelessAstarReq.start ∈ edgelessAstarReq.nodes ∧
      edgelessAstarReq.nodes.Nodup ∧
      (∀ e ∈ edgelessAstarReq.edges,
        e.from_ ∈ edgelessAstarReq.nodes ∧ e.«to» ∈ edgelessAstarReq.nodes) ∧
      edgelessAstarReq.start ≠ edgelessAstarReq.end_ ∧
      (∀ c, ¬ IsWalk (Graph.adj ⟨edgelessAstarReq.nodes, edgelessAstarReq.edges,
          edgelessAstarReq.weightType⟩)
        edgelessAstarReq.start edgelessAstarReq.end_ c)) ∧
    calculate_route (fun q => q) edgelessAstarReq =
      Outcome.ok ⟨false, some "No path found between selected nodes", [], [], 0, 0⟩ ∧
    ∀ path steps, runAlgorithm (fun q => q) edgelessAstarReq = Except.ok (path, steps) →
      path = [] ∧
      ∀ n, n ∈ steps.map PathStep.current ↔
        ∃ c, IsWalk (Graph.adj ⟨edgelessAstarReq.nodes, edgelessAstarReq.edges,
          edgelessAstarReq.weightType⟩) edgelessAstarReq.start n c :=
  ⟨⟨Or.inr rfl, fun _ => ⟨by decide, by decide⟩, by decide, by decide, by decide, by decide,
    fun c => no_walk_no_edges rfl (by decide) c⟩,
   c2_theorem (fun q => q) edgelessAstarReq (Or.inr rfl) (fun _ => ⟨by decide, by decide⟩)
     (by decide) (by decide) (by decide) (by decide)
     (fun c => no_walk_no_edges rfl (by decide) c)⟩

/-- C2 counterexample: B is reachable from the start A while C is not, yet the
no-path response carries an empty steps list, with no snapshot for A or B. -/
theorem c2_counterexample :
    calculate_route (fun q => q) unreachableReq =
      Outcome.ok ⟨false, some "No path found between selected nodes", [], [], 0, 0⟩ ∧
    IsWalk (Graph.adj ⟨unreachableReq.nodes, unreachableReq.edges, unreachableReq.weightType⟩)
      "A" "B" 1 := by
  refine ⟨by with_unfolding_all decide, ?_⟩
  have hm : ("B", (1 : ℚ)) ∈
      Graph.adj ⟨unreachableReq.nodes, unreachableReq.edges, unreachableReq.weightType⟩ "A" := by
    with_unfolding_all decide
  have h3 : (1 : ℚ) = 1 + 0 := by norm_num
  rw [h3]
  exact IsWalk.cons hm (IsWalk.nil "B")

/-- C5 (amended): with start equal to end, different from `""`, and (under
astar) a position present for the start, either algorithm settles the start
once, breaks, and the handler answers success with path `[start]`, exactly
one snapshot (current node the start) and totals 0.  The case
start = end = `""` is refuted by `c5_counterexample`. -/
theorem c5_theorem (sq : ℚ → ℚ) (req : RouteRequest)
    (halg : req.algorithm = "dijkstra" ∨ req.algorithm = "astar")
    (hpos : req.algorithm = "astar" →
      (lookupKV req.nodePositions req.start).isSome = true)
    (hse : req.start = req.end_) (hsne : req.start ≠ "") :
    calculate_route sq req = Outcome.ok
      ⟨true, none, [req.start],
       [⟨req.start, [req.start],
         renderDistances req.nodes (fun n => if n = req.start then some 0 else none), []⟩],
       0, 0⟩ := by
  have hend_ne : req.end_ ≠ "" := by
    rw [← hse]
    exact hsne
  have hpop : ∀ p1 : ℚ,
      popMin [(⟨p1, 0, req.start⟩ : Entry)] = some (⟨p1, 0, req.start⟩, []) := by
    intro p1
    have h1 : pqMin [(⟨p1, 0, req.start⟩ : Entry)] = some ⟨p1, 0, req.start⟩ := rfl
    unfold popMin
    rw [h1]
    show (some (⟨p1, 0, req.start⟩, [(⟨p1, 0, req.start⟩ : Entry)].erase ⟨p1, 0, req.start⟩) :
        Option (Entry × List Entry)) = some (⟨p1, 0, req.start⟩, [])
    rw [List.erase_cons_head]
  have hloop : ∀ (h : String → Except String ℚ) (p1 : ℚ),
      searchLoop req.nodes (Graph.adj ⟨req.nodes, req.edges, req.weightType⟩)
        req.end_ h (searchFuel ⟨req.nodes, req.edges, req.weightType⟩)
        ⟨[⟨p1, 0, req.start⟩], fun n => if n = req.start then some 0 else none, [], [], []⟩ =
      LoopRes.done (settleState req.nodes
        ⟨[⟨p1, 0, req.start⟩], fun n => if n = req.start then some 0 else none, [], [], []⟩
        ⟨p1, 0, req.start⟩ []) := by
    intro h p1
    show searchLoop req.nodes (Graph.adj ⟨req.nodes, req.edges, req.weightType⟩)
      req.end_ h (2 * req.edges.length + 1 + 1)
      ⟨[⟨p1, 0, req.start⟩], fun n => if n = req.start then some 0 else none, [], [], []⟩ = _
    simp only [searchLoop]
    rw [hpop p1]
    simp only []
    rw [if_neg (List.not_mem_nil req.start), if_pos hse]
  have hwalk : ∀ f acc, walkBack [] f none acc = acc := by
    intro f acc
    cases f <;> rfl
  have hrec : reconstructPath [] req.start req.end_ (req.nodes.length + 1) = [req.start] := by
    unfold reconstructPath
    rw [if_pos (Or.inr hse)]
    simp only [walkBack]
    rw [if_neg hend_ne]
    show walkBack [] req.nodes.length none [req.end_] = [req.start]
    rw [hwalk, ← hse]
  have hfin : runAlgorithm sq req = Except.ok ([req.start],
      [⟨req.start, [req.start],
        renderDistances req.nodes (fun n => if n = req.start then some 0 else none), []⟩]) := by
    rcases halg with hd | ha
    · simp only [runAlgorithm]
      rw [if_pos hd]
      simp only [Graph.dijkstra]
      rw [hloop (fun _ => Except.ok 0) 0]
      simp only [settleState, List.nil_append]
      rw [hrec]
    · have hnd2 : req.algorithm ≠ "dijkstra" := by
        rw [ha]
        decide
      obtain ⟨p, hp⟩ : ∃ p, lookupKV req.nodePositions req.start = some p := by
        cases hl : lookupKV req.nodePositions req.start with
        | none =>
          have h2 := hpos ha
          rw [hl] at h2
          simp at h2
        | some p => exact ⟨p, rfl⟩
      obtain ⟨h0v, hh⟩ : ∃ h0v, heuristicOf req.nodePositions sq req.end_ req.start =
          Except.ok h0v := by
        unfold heuristicOf
        rw [hp, ← hse, hp]
        exact ⟨_, rfl⟩
      simp only [runAlgorithm]
      rw [if_neg hnd2, if_pos ha]
      simp only [Graph.astar]
      rw [hh]
      simp only []
      rw [hloop (heuristicOf req.nodePositions sq req.end_) h0v]
      simp only [settleState, List.nil_append]
      rw [hrec]
  simp only [calculate_route]
  rw [hfin]
  have hpt : pathTotals req.edges [req.start] = (0, 0) := rfl
  simp only [hpt, List.isEmpty_cons, round2_zero]
  rfl

/-- C5 witness: the single-snapshot self-route at the one-node astar request
with the start positioned. -/
theorem c5_witness :
    ((selfAstarReq.algorithm = "dijkstra" ∨ selfAstarReq.algorithm = "astar") ∧
      (selfAstarReq.algorithm = "astar" →
        (lookupKV selfAstarReq.nodePositions selfAstarReq.start).isSome = true) ∧
      selfAstarReq.start = selfAstarReq.end_ ∧ selfAstarReq.start ≠ "") ∧
    calculate_route (fun q => q) selfAstarReq = Outcome.ok
      ⟨true, none, [selfAstarReq.start],
       [⟨selfAstarReq.start, [selfAstarReq.start],
         renderDistances selfAstarReq.nodes
           (fun n => if n = selfAstarReq.start then some 0 else none),
         []⟩],
       0, 0⟩ :=
  ⟨⟨Or.inr rfl, fun _ => rfl, rfl, by decide⟩,
   c5_theorem (fun q => q) selfAstarReq (Or.inr rfl) (fun _ => rfl) rfl (by decide)⟩

/-- C5 counterexample: with start = end = `""` the reconstruction stops at the
empty string immediately, so instead of path `[""]` with one snapshot the
handler answers the no-path response with an empty path and empty trace. -/
theorem c5_counterexample :
    calculate_route (fun q => q) emptyStartReq =
      Outcome.ok ⟨false, some "No path found between selected nodes", [], [], 0, 0⟩ := by
  with_unfolding_all decide

end ITR
